import Mathlib

/-!
Shallow embedding of the molly xtc-reader (Rust) for specification checking.

Conventions of the embedding:
* Machine integers are modelled as `Nat` (unsigned types) and `Int` (for Rust
  i32/i64 values), with wrap-around made explicit (`% 2^32`, `wrap32`, ...)
  exactly where the Rust types would wrap in an unchecked (release) build.
  Shift amounts are masked by the bit width, matching unchecked Rust shifts.
* Operations that can panic in every build profile (slice indexing out of
  bounds, explicit panic!/assert!/unwrap) are modelled in `Option`, with
  `none` standing for a panic.
* The f32 values written into a positions buffer are never inspected by the
  claims treated here; the conversion `|v| v as f32 * invprecision` is kept
  abstract as a parameter `toF : Int → A` and the positions buffer is a
  `List A`.
-/

namespace Molly

/-- Two to the 32nd, the modulus of Rust u32 arithmetic. -/
def U32M : Nat := 4294967296

/-- Two to the 64th, the modulus of Rust u64/usize arithmetic. -/
def U64M : Nat := 18446744073709551616

/-- Reinterpretation of a Rust i32 value as u32 (the `as u32` cast). -/
def i32AsU32 (x : Int) : Nat := (x % (U32M : Int)).toNat

/-- Rust `as i32` cast from an unsigned value: truncate to 32 bits, then
reinterpret the top bit as a sign bit. -/
def u32AsI32 (n : Nat) : Int :=
  if n % U32M < 2 ^ 31 then ((n % U32M : Nat) : Int) else ((n % U32M : Nat) : Int) - (U32M : Int)

/-- Wrap-around of Rust i32 addition/subtraction results (unchecked build). -/
def wrap32 (x : Int) : Int := (x + 2 ^ 31) % (U32M : Int) - 2 ^ 31

/-- Rust u32 left shift in an unchecked build: the shift amount is masked by
the bit width, the result is truncated to 32 bits. -/
def shl32 (a n : Nat) : Nat := (a <<< (n % 32)) % U32M

/-- Rust u32 right shift in an unchecked build: the shift amount is masked. -/
def shr32 (a n : Nat) : Nat := a >>> (n % 32)

/-- The checked u32→i32 conversion (`try_into`), which fails above `i32::MAX`.
In `decodebits` a failed conversion hits `unreachable!()`, a panic. -/
def u32TryIntoI32 (n : Nat) : Option Int :=
  if n < 2 ^ 31 then some (n : Int) else none

/-- The checked u32→u8 conversion (`try_into`). -/
def u32TryIntoU8 (n : Nat) : Option Nat :=
  if n < 256 then some n else none

/-- The 73-entry table of magic integers (reader.rs lines 13-22, repeated
verbatim in lib.rs lines 420-429). -/
def MAGICINTS : List Int :=
  [0, 0, 0, 0, 0, 0, 0, 0, 0, 8,
   10, 12, 16, 20, 25, 32, 40, 50, 64, 80,
   101, 128, 161, 203, 256, 322, 406, 512, 645, 812,
   1024, 1290, 1625, 2048, 2580, 3250, 4096, 5060, 6501, 8192,
   10321, 13003, 16384, 20642, 26007, 32768, 41285, 52015, 65536, 82570,
   104031, 131072, 165140, 208063, 262144, 330280, 416127, 524287, 660561, 832255,
   1048576, 1321122, 1664510, 2097152, 2642245, 3329021, 4194304, 5284491, 6658042, 8388607,
   10568983, 13316085, 16777216]

/-- FIRSTIDX (reader.rs line 23 and lib.rs line 431). -/
def FIRSTIDX : Nat := 9

/-- Bounds-checked lookup in `MAGICINTS` (`MAGICINTS[i]` panics out of
bounds, `none` here).  The explicit length test only keeps evaluation of
wrapped (near `2^64`) indices cheap; it agrees with `List.get?`. -/
def magicGet (i : Nat) : Option Int :=
  if i < MAGICINTS.length then MAGICINTS.get? i else none

/-- The rolling bit-cursor state of the decoder (reader.rs lines 5-9,
lib.rs lines 407-411). -/
structure DecodeState where
  count : Nat
  lastbits : Nat
  lastbyte : Nat
  deriving Repr, DecidableEq

end Molly

namespace Molly

/-- The byte-fetching loop shared by `decodebits` and `decodebyte`
(reader.rs lines 347-352): while `nbits >= 8`, shift the next buffer byte
into the rolling register and OR `(lastbyte >> lastbits) << (nbits - 8)`
into `num`.  Returns the updated `(count, lastbyte, num)` together with the
remaining bit count `nbits % 8`; `none` models the panic of an out-of-bounds
`buf[count]` access. -/
def decodeLoop (buf : List Nat) : Nat → Nat → Nat → Nat → Nat →
    Option (Nat × Nat × Nat × Nat)
  | count, lastbits, lastbyte, num, nbits + 8 =>
      match buf.get? count with
      | none => none
      | some b =>
          let lastbyte1 := (shl32 lastbyte 8) ||| (b % U32M)
          let num1 := (num ||| shl32 (shr32 lastbyte1 lastbits) nbits) % U32M
          decodeLoop buf (count + 1) lastbits lastbyte1 num1 nbits
  | count, _, lastbyte, num, nbits => some (count, lastbyte, num, nbits)

/-- The tail step of `decodebits`/`decodebyte` (reader.rs lines 354-362): when
fewer than 8 bits remain, pull at most one more byte and OR the extracted
bits into `num` under `mask`. -/
def decodeTail (buf : List Nat) (count lastbits lastbyte num nbits mask : Nat) :
    Option (Nat × Nat × Nat × Nat) :=
  if nbits > 0 then
    let pull : Option (Nat × Nat × Nat) :=
      if lastbits < nbits then
        match buf.get? count with
        | none => none
        | some b => some (count + 1, lastbits + 8, (shl32 lastbyte 8) ||| (b % U32M))
      else
        some (count, lastbits, lastbyte)
    match pull with
    | none => none
    | some (count1, lastbits1, lastbyte1) =>
        let lastbits2 := lastbits1 - nbits
        let num1 := num ||| ((shr32 lastbyte1 lastbits2) &&& mask)
        some (count1, lastbits2, lastbyte1, num1)
  else
    some (count, lastbits, lastbyte, num)

/-- Embedding of `decodebits` (reader.rs lines 336-375; textually the same
function appears at lib.rs lines 198-243).  Returns the extracted `u32`
value together with the persisted state; `none` models a panic.  The mask is
`(1u32 << nbits) - 1`, whose shift is masked by the width in an unchecked
build, so `nbits = 32` produces mask `0`. -/
def decodebits (buf : List Nat) (st : DecodeState) (nbits : Nat) :
    Option (Nat × DecodeState) := do
  let mask := shl32 1 nbits - 1
  let (count1, lastbyte1, num1, nbits1) ←
    decodeLoop buf st.count st.lastbits (st.lastbyte % U32M) 0 nbits
  let (count2, lastbits2, lastbyte2, num2) ←
    decodeTail buf count1 st.lastbits lastbyte1 num1 nbits1 mask
  let numF := num2 &&& mask
  some (numF, ⟨count2, lastbits2, lastbyte2 &&& 255⟩)

/-- Embedding of `decodebyte` (reader.rs lines 296-334): identical to
`decodebits` with `nbits = 8` and mask `0xff`, and a final debug assertion
`num & 0xff == num` before returning the byte. -/
def decodebyte (buf : List Nat) (st : DecodeState) : Option (Nat × DecodeState) := do
  let mask := 255
  let (count1, lastbyte1, num1, nbits1) ←
    decodeLoop buf st.count st.lastbits (st.lastbyte % U32M) 0 8
  let (count2, lastbits2, lastbyte2, num2) ←
    decodeTail buf count1 st.lastbits lastbyte1 num1 nbits1 mask
  let numF := num2 &&& mask
  some (numF, ⟨count2, lastbits2, lastbyte2 &&& 255⟩)

end Molly

namespace Molly

/-- Embedding of `AtomSelection` (selection.rs lines 16-30). -/
inductive AtomSelection where
  | all : AtomSelection
  | mask : List Bool → AtomSelection
  | until_ : Nat → AtomSelection
  deriving Repr, DecidableEq

/-- Embedding of `AtomSelection::is_included` (selection.rs lines 52-65).
The Rust function first casts the `usize` index to `u32`, truncating it
modulo `2^32`, and for `Until(k)` tests `idx <= until` (inclusive). -/
def AtomSelection.isIncluded (s : AtomSelection) (idx : Nat) : Option Bool :=
  let idx32 := idx % U32M
  match s with
  | .all => some true
  | .mask m => m.get? idx32
  | .until_ k => if idx32 ≤ k then some true else none

/-- Embedding of `AtomSelection::from_index_list` (selection.rs lines 34-47):
build a mask of length `max(indices) + 1` that is `true` exactly at the
listed indices (empty input gives an empty mask). -/
def AtomSelection.fromIndexList (indices : List Nat) : AtomSelection :=
  match indices with
  | [] => .mask []
  | i :: is =>
      let maxLen := (is.foldl max i) + 1
      let base := List.replicate maxLen false
      .mask (indices.foldl (fun m idx => m.set idx true) base)

/-- Embedding of `Range` (selection.rs lines 116-130); `step` is a
`NonZeroU64`, recorded here as a plain `Nat` field whose callers maintain
`1 ≤ step`. -/
structure FrameRange where
  start : Nat
  stop : Option Nat
  step : Nat
  deriving Repr, DecidableEq

/-- Embedding of `Range::is_included` (selection.rs lines 147-157).  The
test on a bounded end is exclusive; the step test is
`step == 1 || (idx + start) % step == 0`, with the u64 addition wrapping in
an unchecked build. -/
def FrameRange.isIncluded (r : FrameRange) (idx : Nat) : Option Bool :=
  match r.stop with
  | some e => if e ≤ idx then none else
      some (decide (r.start ≤ idx) && (decide (r.step = 1) || decide ((idx + r.start) % U64M % r.step = 0)))
  | none =>
      some (decide (r.start ≤ idx) && (decide (r.step = 1) || decide ((idx + r.start) % U64M % r.step = 0)))

/-- A Rust `[i32; 3]` coordinate triple. -/
structure Coord where
  x : Int
  y : Int
  z : Int
  deriving Repr, DecidableEq

/-- A Rust `[u32; 3]` size triple. -/
structure Sizes where
  x : Nat
  y : Nat
  z : Nat
  deriving Repr, DecidableEq

/-- Rust u64 left shift in an unchecked build (shift amount masked by 64). -/
def shl64 (a n : Nat) : Nat := (a <<< (n % 64)) % U64M

/-- The byte/tail-bit collection loop of `unpack_from_int_into_u32`
(reader.rs lines 428-435): whole bytes are pulled with `decodebyte` and ORed
into `v` at offset `8 * nbytes`. -/
def unpackCollect32R (buf : List Nat) : DecodeState → Nat → Nat → Nat →
    Option (Nat × Nat × Nat × DecodeState)
  | st, v, nbytes, nbits + 8 =>
      match decodebyte buf st with
      | none => none
      | some (b, st1) =>
          unpackCollect32R buf st1 (v ||| shl32 b (8 * nbytes)) (nbytes + 1) nbits
  | st, v, nbytes, nbits => some (v, nbytes, nbits, st)

/-- Same collection loop in the lib.rs variant (lib.rs lines 304-310), which
pulls whole bytes with `decodebits(buf, state, 8)` instead of `decodebyte`. -/
def unpackCollect32L (buf : List Nat) : DecodeState → Nat → Nat → Nat →
    Option (Nat × Nat × Nat × DecodeState)
  | st, v, nbytes, nbits + 8 =>
      match decodebits buf st 8 with
      | none => none
      | some (b, st1) =>
          unpackCollect32L buf st1 (v ||| shl32 b (8 * nbytes)) (nbytes + 1) nbits
  | st, v, nbytes, nbits => some (v, nbytes, nbits, st)

/-- The 64-bit collection loop of `unpack_from_int_into_u64`
(reader.rs lines 462-472). -/
def unpackCollect64R (buf : List Nat) : DecodeState → Nat → Nat → Nat →
    Option (Nat × Nat × Nat × DecodeState)
  | st, v, nbytes, nbits + 8 =>
      match decodebyte buf st with
      | none => none
      | some (b, st1) =>
          unpackCollect64R buf st1 (v ||| shl64 b (8 * nbytes)) (nbytes + 1) nbits
  | st, v, nbytes, nbits => some (v, nbytes, nbits, st)

/-- The 64-bit collection loop of the lib.rs variant (lib.rs lines 338-349). -/
def unpackCollect64L (buf : List Nat) : DecodeState → Nat → Nat → Nat →
    Option (Nat × Nat × Nat × DecodeState)
  | st, v, nbytes, nbits + 8 =>
      match decodebits buf st 8 with
      | none => none
      | some (b, st1) =>
          unpackCollect64L buf st1 (v ||| shl64 b (8 * nbytes)) (nbytes + 1) nbits
  | st, v, nbytes, nbits => some (v, nbytes, nbits, st)

/-- The mixed-radix extraction shared by both 32-bit unpack functions
(reader.rs lines 442-450): `x = v / (sz*sy)`, `q = v - x*(sz*sy)`,
`y = q / sz`, `z = q - y*sz`, each result cast `as i32`.  A zero `sz*sy`
makes the first division panic (`none`); when it is nonzero `sz` is
necessarily nonzero as well. -/
def mixedRadix32 (v : Nat) (sizes : Sizes) : Option Coord :=
  let sz := sizes.z
  let sy := sizes.y
  let szy := (sz * sy) % U32M
  if szy = 0 then none else
  let x1 := v / szy
  let q1 := v - x1 * szy
  let y1 := q1 / sz
  let z1 := q1 - y1 * sz
  some ⟨u32AsI32 x1, u32AsI32 y1, u32AsI32 z1⟩

/-- The mixed-radix extraction of the 64-bit unpack functions
(reader.rs lines 475-483), with `sizes` widened to u64. -/
def mixedRadix64 (v : Nat) (sizes : Sizes) : Option Coord :=
  let sz := sizes.z
  let sy := sizes.y
  let szy := (sz * sy) % U64M
  if szy = 0 then none else
  let x1 := v / szy
  let q1 := v - x1 * szy
  let y1 := q1 / sz
  let z1 := q1 - y1 * sz
  some ⟨u32AsI32 x1, u32AsI32 y1, u32AsI32 z1⟩

/-- Embedding of reader.rs `unpack_from_int_into_u32` (lines 420-451). -/
def unpackFromIntIntoU32R (buf : List Nat) (st : DecodeState) (nbits : Nat) (sizes : Sizes) :
    Option (Coord × DecodeState) := do
  let (v0, nbytes, nbitsRem, st1) ← unpackCollect32R buf st 0 0 nbits
  let (v1, st2) ←
    if nbitsRem > 0 then do
      let (b, st2) ← decodebits buf st1 nbitsRem
      pure (v0 ||| shl32 b (8 * nbytes), st2)
    else
      pure (v0, st1)
  let c ← mixedRadix32 v1 sizes
  some (c, st2)

/-- Embedding of lib.rs `unpack_from_int_into_u32` (lines 293-326). -/
def unpackFromIntIntoU32L (buf : List Nat) (st : DecodeState) (nbits : Nat) (sizes : Sizes) :
    Option (Coord × DecodeState) := do
  let (v0, nbytes, nbitsRem, st1) ← unpackCollect32L buf st 0 0 nbits
  let (v1, st2) ←
    if nbitsRem > 0 then do
      let (b, st2) ← decodebits buf st1 nbitsRem
      pure (v0 ||| shl32 b (8 * nbytes), st2)
    else
      pure (v0, st1)
  let c ← mixedRadix32 v1 sizes
  some (c, st2)

/-- Embedding of reader.rs `unpack_from_int_into_u64` (lines 453-484). -/
def unpackFromIntIntoU64R (buf : List Nat) (st : DecodeState) (nbits : Nat) (sizes : Sizes) :
    Option (Coord × DecodeState) := do
  let (v0, nbytes, nbitsRem, st1) ← unpackCollect64R buf st 0 0 nbits
  let (v1, st2) ←
    if nbitsRem > 0 then do
      let (b, st2) ← decodebits buf st1 nbitsRem
      pure (v0 ||| shl64 b (8 * nbytes), st2)
    else
      pure (v0, st1)
  let c ← mixedRadix64 v1 sizes
  some (c, st2)

/-- Embedding of lib.rs `unpack_from_int_into_u64` (lines 328-361). -/
def unpackFromIntIntoU64L (buf : List Nat) (st : DecodeState) (nbits : Nat) (sizes : Sizes) :
    Option (Coord × DecodeState) := do
  let (v0, nbytes, nbitsRem, st1) ← unpackCollect64L buf st 0 0 nbits
  let (v1, st2) ←
    if nbitsRem > 0 then do
      let (b, st2) ← decodebits buf st1 nbitsRem
      pure (v0 ||| shl64 b (8 * nbytes), st2)
    else
      pure (v0, st1)
  let c ← mixedRadix64 v1 sizes
  some (c, st2)

/-- The byte-collection loop of the `nbits > 64` path of reader.rs
`decodeints` (lines 393-399): fill `bytes[nbytes]` with `decodebyte` while
`nbits >= 8`.  Writing past the 32-entry array is a panic. -/
def bigCollectR (buf : List Nat) : DecodeState → List Nat → Nat → Nat →
    Option (List Nat × Nat × Nat × DecodeState)
  | st, bytes, nbytes, nbits + 8 =>
      match decodebyte buf st with
      | none => none
      | some (b, st1) =>
          if nbytes < bytes.length then
            bigCollectR buf st1 (bytes.set nbytes b) (nbytes + 1) nbits
          else none
  | st, bytes, nbytes, nbits => some (bytes, nbytes, nbits, st)

/-- The byte-collection loop of the `nbits > 64` path of lib.rs
`decodeints` (lines 263-268), using `decodebits(buf, state, 8)`. -/
def bigCollectL (buf : List Nat) : DecodeState → List Nat → Nat → Nat →
    Option (List Nat × Nat × Nat × DecodeState)
  | st, bytes, nbytes, nbits + 8 =>
      match decodebits buf st 8 with
      | none => none
      | some (b, st1) =>
          if nbytes < bytes.length then
            bigCollectL buf st1 (bytes.set nbytes b) (nbytes + 1) nbits
          else none
  | st, bytes, nbytes, nbits => some (bytes, nbytes, nbits, st)

/-- One long-division pass of the reader.rs big-integer path
(lines 406-413): starting from the most significant digit `bytes[nbytes-1]`
down to `bytes[0]`, divide the base-256 number by `szi`, storing the
quotient digits back and keeping the running remainder in `num` (a u32).
`k` counts the digits still to process.  Division by zero is a panic. -/
def bigDivGo (szi : Nat) : Nat → Nat → List Nat → Option (List Nat × Nat)
  | 0, num, bytes => some (bytes, num)
  | k + 1, num, bytes =>
      match bytes.get? k with
      | none => none
      | some bk =>
          if szi = 0 then none else
          let num1 := (shl32 num 8) ||| bk
          let p := num1 / szi
          bigDivGo szi k (num1 - p * szi) (bytes.set k (p % 256))

/-- Reconstruction of `i32::from_le_bytes(bytes[..4])` (reader.rs line 417;
written out as shifted ORs at lib.rs lines 287-290). -/
def leBytesToI32 (bytes : List Nat) : Int :=
  u32AsI32 (bytes.getD 0 0 + bytes.getD 1 0 * 256 + bytes.getD 2 0 * 65536 +
    bytes.getD 3 0 * 16777216)

/-- Embedding of reader.rs `decodeints` (lines 377-418).  The `nbits > 64`
path iterates `for i in (0..2).rev()`, i.e. `i = 1` then `i = 0`: it divides
by `sizes[1]` storing the remainder into `nums[1]`, then by `sizes[0]`
storing into `nums[0]`, and finally overwrites `nums[0]` with the low 32
little-endian bits; `nums[2]` keeps its incoming value. -/
def decodeintsR (buf : List Nat) (st : DecodeState) (nbits : Nat) (sizes : Sizes)
    (nums : Coord) : Option (Coord × DecodeState) :=
  if nbits ≤ 32 then
    unpackFromIntIntoU32R buf st nbits sizes
  else if nbits ≤ 64 then
    unpackFromIntIntoU64R buf st nbits sizes
  else do
    let (bytes0, nbytes0, nbitsRem, st1) ←
      bigCollectR buf st (List.replicate 32 0) 0 nbits
    let (bytes1, nbytes1, st2) ←
      if nbitsRem > 0 then do
        let (b, st2) ← decodebits buf st1 nbitsRem
        if nbytes0 < bytes0.length then
          pure (bytes0.set nbytes0 b, nbytes0 + 1, st2)
        else none
      else
        pure (bytes0, nbytes0, st1)
    let (bytes2, num1) ← bigDivGo sizes.y nbytes1 0 bytes1
    let (bytes3, _num0) ← bigDivGo sizes.x nbytes1 0 bytes2
    some (⟨leBytesToI32 bytes3, u32AsI32 num1, nums.z⟩, st2)

/-- Embedding of lib.rs `decodeints` (lines 245-291).  Its `nbits > 64` path
contains the empty loop `for i in 2..0`, so no long division happens at all:
only `nums[0]` is written (from the low 32 little-endian bits) while
`nums[1]` and `nums[2]` keep their incoming values. -/
def decodeintsL (buf : List Nat) (st : DecodeState) (nbits : Nat) (sizes : Sizes)
    (nums : Coord) : Option (Coord × DecodeState) :=
  if nbits ≤ 32 then
    unpackFromIntIntoU32L buf st nbits sizes
  else if nbits ≤ 64 then
    unpackFromIntIntoU64L buf st nbits sizes
  else do
    let (bytes0, nbytes0, nbitsRem, st1) ←
      bigCollectL buf st (List.replicate 32 0) 0 nbits
    let (bytes1, _nbytes1, st2) ←
      if nbitsRem > 0 then do
        let (b, st2) ← decodebits buf st1 nbitsRem
        if nbytes0 < bytes0.length then
          pure (bytes0.set nbytes0 b, nbytes0 + 1, st2)
        else none
      else
        pure (bytes0, nbytes0, st1)
    some (⟨leBytesToI32 bytes1, nums.y, nums.z⟩, st2)

/-- The bit-counting loop of `sizeofint` (reader.rs lines 247-258):
`while size >= n && nbits < 32`, doubling `n` (a u32) each round. -/
def sizeofintGo (size : Nat) : Nat → Nat → Nat → Nat
  | n, nbits, rem + 1 =>
      if n ≤ size then sizeofintGo size ((n <<< 1) % U32M) (nbits + 1) rem else nbits
  | _, nbits, 0 => nbits

/-- Embedding of `sizeofint` (reader.rs lines 247-258, lib.rs 145-156); the
last argument of the loop counts the rounds left before `nbits < 32` fails,
so it starts at 32. -/
def sizeofint (size : Nat) : Nat := sizeofintGo size 1 0 32

/-- The base-256 long-multiplication pass of `sizeofints`
(reader.rs lines 267-274): multiply the digits `bytes[0..nbytes]` by `size`
with carry `tmp` (a u32, wrapping). -/
def sizeofintsMulGo (size : Nat) : List Nat → Nat → Nat → Nat →
    Option (List Nat × Nat × Nat)
  | bytes, tmp, bytecount, rem + 1 =>
      match bytes.get? bytecount with
      | none => none
      | some bk =>
          let tmp1 := (bk * size + tmp) % U32M
          sizeofintsMulGo size (bytes.set bytecount (tmp1 % 256)) (tmp1 >>> 8)
            (bytecount + 1) rem
  | bytes, tmp, bytecount, 0 => some (bytes, tmp, bytecount)

/-- The carry-propagation pass of `sizeofints` (reader.rs lines 275-282):
append further digits while `tmp != 0`; writing past the 32-entry array is a
panic.  The leading fuel argument (callers pass 8) keeps the recursion
structural; the u32 carry loses at least 8 bits per round, so at most four
rounds can run and the fuel is never exhausted. -/
def sizeofintsCarryGo : Nat → List Nat → Nat → Nat → Option (List Nat × Nat)
  | 0, _, _, _ => none
  | fuel + 1, bytes, tmp, bytecount =>
      if tmp ≠ 0 then
        if bytecount < bytes.length then
          sizeofintsCarryGo fuel (bytes.set bytecount (tmp % 256)) (tmp >>> 8)
            (bytecount + 1)
        else none
      else some (bytes, bytecount)

/-- The top-digit bit count of `sizeofints` (reader.rs lines 287-291):
`while bytes[nbytes] >= num` double the u32 `num`.  For the u8 digits stored
in `bytes` at most 9 rounds can run; the fuel models the (unreachable)
divergence that wrapping `num` to zero would cause. -/
def sizeofintsTopGo (b : Nat) : Nat → Nat → Nat → Option Nat
  | 0, _, _ => none
  | fuel + 1, num, nbits =>
      if num ≤ b then sizeofintsTopGo b fuel ((num * 2) % U32M) (nbits + 1)
      else some nbits

/-- Processing of one `size` inside the digit loop of `sizeofints`. -/
def sizeofintsSizeStep (bytes : List Nat) (nbytes : Nat) (size : Nat) :
    Option (List Nat × Nat) := do
  let (bytes1, tmp1, bytecount1) ← sizeofintsMulGo size bytes 0 0 nbytes
  let (bytes2, bytecount2) ← sizeofintsCarryGo 8 bytes1 tmp1 bytecount1
  some (bytes2, bytecount2)

/-- Embedding of `sizeofints` (reader.rs lines 260-294, lib.rs 159-195):
long-multiply the three sizes in base 256, then count the bits of the
product from its top digit.  The final `nbytes -= 1` underflows (a panic or
a wrapped out-of-bounds index) if no digit was produced, which cannot
happen since the digit array starts as `[1]`. -/
def sizeofints (sizes : Sizes) : Option Nat := do
  let bytes0 := (List.replicate 32 0).set 0 1
  let (bytes1, nbytes1) ← sizeofintsSizeStep bytes0 1 sizes.x
  let (bytes2, nbytes2) ← sizeofintsSizeStep bytes1 nbytes1 sizes.y
  let (bytes3, nbytes3) ← sizeofintsSizeStep bytes2 nbytes2 sizes.z
  if nbytes3 = 0 then none else
  match bytes3.get? (nbytes3 - 1) with
  | none => none
  | some top => do
      let nbits ← sizeofintsTopGo top 40 1 0
      some ((nbytes3 - 1) * 8 + nbits)

/-- Embedding of `calc_sizeint` (reader.rs lines 224-245, lib.rs 122-143).
Returns `(sizeint, bitsizeint, bitsize)`; `bitsize = 0` flags the large-size
path.  `sizeint[i] = (maxint[i] - minint[i]) as u32 + 1` with wrapping i32
subtraction and wrapping u32 increment. -/
def calcSizeint (minint maxint : Coord) : Option (Sizes × Sizes × Nat) := do
  let sx := (i32AsU32 (wrap32 (maxint.x - minint.x)) + 1) % U32M
  let sy := (i32AsU32 (wrap32 (maxint.y - minint.y)) + 1) % U32M
  let sz := (i32AsU32 (wrap32 (maxint.z - minint.z)) + 1) % U32M
  let sizeint : Sizes := ⟨sx, sy, sz⟩
  if (sx ||| sy ||| sz) > 0xffffff then
    some (sizeint, ⟨sizeofint sx, sizeofint sy, sizeofint sz⟩, 0)
  else do
    let bitsize ← sizeofints sizeint
    some (sizeint, ⟨0, 0, 0⟩, bitsize)

/-- Embedding of the run-protocol initialisation of the compressed-position
decoder (reader.rs lines 43-55; the same code appears at lib.rs lines
436-450).  `smallidx` is a `usize` obtained from a u32 read; the assertion
`smallidx < MAGICINTS.len()` panics for values at or above 73.  `tmpidx =
smallidx - 1` is an unsigned (usize) subtraction: for `smallidx = 0` it
panics in a checked build and wraps to `2^64 - 1` in an unchecked build,
after which `FIRSTIDX > tmpidx` is false and `MAGICINTS[tmpidx]` indexes out
of bounds — a panic either way, modelled as `none`.  On success returns
`(smaller, smallnum, sizesmall)`. -/
def preludeInit (smallidx : Nat) : Option (Int × Int × Sizes) :=
  if smallidx < MAGICINTS.length then
    let tmpidx := (smallidx + (U64M - 1)) % U64M
    let tmpidx := if FIRSTIDX > tmpidx then FIRSTIDX else tmpidx
    match magicGet tmpidx, magicGet smallidx with
    | some mtmp, some msmall =>
        some (mtmp / 2, msmall / 2, ⟨i32AsU32 msmall, i32AsU32 msmall, i32AsU32 msmall⟩)
    | _, _ => none
  else none

/-- The componentwise offset `coord[i] += prevcoord[i] - smallnum` applied to
every decoded run sub-triplet (reader.rs lines 124-126, lib.rs 523-525),
with wrapping i32 arithmetic. -/
def offsetCoord (c prev : Coord) (smallnum : Int) : Coord :=
  ⟨wrap32 (c.x + wrap32 (prev.x - smallnum)),
   wrap32 (c.y + wrap32 (prev.y - smallnum)),
   wrap32 (c.z + wrap32 (prev.z - smallnum))⟩

/-- Outcome of the inner run loop of reader.rs `read_compressed_positions`
(lines 115-147).  `retOk` is the early `return Ok(())` triggered by a `None`
selector verdict inside `write_position!`; `cont` hands control back to the
outer loop (after the loop ran to completion or hit `break` on an exhausted
positions buffer).  `trace` records, in order, the coordinate triples passed
to `write_position!`. -/
inductive RunRes (A : Type) where
  | retOk (positions : List A) (trace : List Coord)
  | cont (positions : List A) (st : DecodeState) (coord prev : Coord)
      (readIdx writeIdx : Nat) (trace : List Coord)
  deriving Repr

/-- Write the coordinate triple `c` into the flat positions buffer at triple
index `w` (the `*position = coord.map(|v| v as f32 * invprecision)` of
`write_position!`), through the abstract f32 conversion `toF`. -/
def setTriple {A : Type} (toF : Int → A) (positions : List A) (w : Nat) (c : Coord) :
    List A :=
  ((positions.set (3 * w) (toF c.x)).set (3 * w + 1) (toF c.y)).set (3 * w + 2) (toF c.z)

/-- Whether `positions.array_chunks_mut::<3>().nth(w)` exists: there are
`len / 3` chunks. -/
def chunkAvail {A : Type} (positions : List A) (w : Nat) : Bool :=
  decide (w < positions.length / 3)

/-- One invocation of reader.rs `write_position!` (lines 85-96): consult the
selector at `write_idx`; `None` causes `return Ok(())`, `Some(false)` skips,
`Some(true)` writes the triple and advances `write_idx`.  Returns `none` for
the early return and otherwise the updated buffer and write index. -/
def writePosition {A : Type} (toF : Int → A) (sel : AtomSelection)
    (positions : List A) (writeIdx : Nat) (c : Coord) : Option (List A × Nat) :=
  match sel.isIncluded writeIdx with
  | none => none
  | some false => some (positions, writeIdx)
  | some true => some (setTriple toF positions writeIdx c, writeIdx + 1)

/-- The run loop of reader.rs `read_compressed_positions` (lines 115-147),
iterated over the `(0..run).step_by(3)` items; `iters` counts the items
still to run and `first` is true exactly when the current item is `k == 0`.
The decoded small triple is offset by `prevcoord - smallnum`; on the first
item coord and prevcoord are swapped and the post-swap `prevcoord` is
emitted before the post-swap `coord`; later items update `prevcoord` and
emit in order.  After every emission the next chunk of the positions buffer
is re-fetched, and the loop breaks when none is left. -/
def runLoopR {A : Type} (buf : List Nat) (toF : Int → A) (sel : AtomSelection)
    (smallidx : Nat) (sizesmall : Sizes) (smallnum : Int) :
    Nat → Bool → Coord → Coord → List A → DecodeState → Nat → Nat → List Coord →
    Option (RunRes A)
  | 0, _, coord, prev, positions, st, readIdx, writeIdx, trace =>
      some (.cont positions st coord prev readIdx writeIdx trace)
  | iters + 1, first, coord, prev, positions, st, readIdx, writeIdx, trace =>
      match decodeintsR buf st smallidx sizesmall coord with
      | none => none
      | some (coord1, st1) =>
          let readIdx1 := readIdx + 1
          let coord2 := offsetCoord coord1 prev smallnum
          if first then
            -- swap coord and prevcoord, then emit the post-swap prevcoord
            let coord3 := prev
            let prev3 := coord2
            match writePosition toF sel positions writeIdx prev3 with
            | none => some (.retOk positions (trace ++ [prev3]))
            | some (positions1, writeIdx1) =>
                if chunkAvail positions1 writeIdx1 then
                  match writePosition toF sel positions1 writeIdx1 coord3 with
                  | none => some (.retOk positions1 (trace ++ [prev3, coord3]))
                  | some (positions2, writeIdx2) =>
                      if chunkAvail positions2 writeIdx2 then
                        runLoopR buf toF sel smallidx sizesmall smallnum
                          iters false coord3 prev3 positions2 st1 readIdx1 writeIdx2
                          (trace ++ [prev3, coord3])
                      else
                        some (.cont positions2 st1 coord3 prev3 readIdx1 writeIdx2
                          (trace ++ [prev3, coord3]))
                else
                  some (.cont positions1 st1 coord3 prev3 readIdx1 writeIdx1
                    (trace ++ [prev3]))
          else
            let prev3 := coord2
            match writePosition toF sel positions writeIdx coord2 with
            | none => some (.retOk positions (trace ++ [coord2]))
            | some (positions1, writeIdx1) =>
                if chunkAvail positions1 writeIdx1 then
                  runLoopR buf toF sel smallidx sizesmall smallnum
                    iters false coord2 prev3 positions1 st1 readIdx1 writeIdx1
                    (trace ++ [coord2])
                else
                  some (.cont positions1 st1 coord2 prev3 readIdx1 writeIdx1
                    (trace ++ [coord2]))

/-- Outcome of one outer-loop iteration of reader.rs
`read_compressed_positions` (lines 69-173). -/
inductive OuterRes (A : Type) where
  | retOk (positions : List A) (trace : List Coord)
  | cont (positions : List A) (st : DecodeState) (run : Int) (smallidx : Nat)
      (smallnum smaller : Int) (sizesmall : Sizes) (readIdx writeIdx : Nat)
      (trace : List Coord)
  deriving Repr

/-- The `is_smaller` adaptation of `smallidx` (reader.rs lines 152-171):
adjust `smallidx`, `smallnum`, `smaller` by the sign of `is_smaller`, check
`MAGICINTS[smallidx] != 0` (a failed assertion or out-of-bounds index is a
panic), and refill `sizesmall`.  The `smallidx -= 1` is an unsigned usize
subtraction, wrapping at zero. -/
def adaptSmallidx (isSmaller : Int) (smallidx : Nat) (smallnum smaller : Int) :
    Option (Nat × Int × Int × Sizes) := do
  let (smallidx1, smallnum1, smaller1) ←
    if isSmaller < 0 then do
      let smallidx1 := (smallidx + (U64M - 1)) % U64M
      let smallnum1 := smaller
      let smaller1 ←
        if FIRSTIDX < smallidx1 then do
          match magicGet (smallidx1 - 1) with
          | none => none
          | some m => pure (m / 2)
        else
          pure (0 : Int)
      pure (smallidx1, smallnum1, smaller1)
    else if isSmaller > 0 then do
      let smallidx1 := smallidx + 1
      match magicGet smallidx1 with
      | none => none
      | some m => pure (smallidx1, m / 2, smallnum)
    else
      pure (smallidx, smallnum, smaller)
  match magicGet smallidx1 with
  | none => none
  | some m =>
      if m = 0 then none
      else some (smallidx1, smallnum1, smaller1, ⟨i32AsU32 m, i32AsU32 m, i32AsU32 m⟩)

/-- One iteration of the outer `while read_idx < natoms` loop of reader.rs
`read_compressed_positions` (lines 69-173): fetch the current output chunk
(`unwrap` panics when none is left), decode the header triple, add `minint`,
read the flag and (when set) the 5-bit run value, then either process the
run group or emit the single coordinate, and finally adapt `smallidx`. -/
def outerStepR {A : Type} (buf : List Nat) (toF : Int → A) (sel : AtomSelection)
    (minint : Coord) (bitsize : Nat) (bitsizeint : Sizes) (sizeint : Sizes)
    (positions : List A) (st : DecodeState) (run : Int) (smallidx : Nat)
    (smallnum smaller : Int) (sizesmall : Sizes) (readIdx writeIdx : Nat) :
    Option (OuterRes A) := do
  if chunkAvail positions writeIdx then
    let (coord0, st1) ←
      if bitsize = 0 then do
        let (c0, sa) ← decodebits buf st bitsizeint.x
        let x ← u32TryIntoI32 c0
        let (c1, sb) ← decodebits buf sa bitsizeint.y
        let y ← u32TryIntoI32 c1
        let (c2, sc) ← decodebits buf sb bitsizeint.z
        let z ← u32TryIntoI32 c2
        pure ((⟨x, y, z⟩ : Coord), sc)
      else
        decodeintsR buf st bitsize sizeint ⟨0, 0, 0⟩
    let coord1 : Coord :=
      ⟨wrap32 (coord0.x + minint.x), wrap32 (coord0.y + minint.y),
       wrap32 (coord0.z + minint.z)⟩
    let prev := coord1
    let (flagBits, st2) ← decodebits buf st1 1
    let flagByte ← u32TryIntoU8 flagBits
    let flag := decide (flagByte > 0)
    let (run1, isSmaller1, st3) ←
      if flag then do
        let (runBits, st3) ← decodebits buf st2 5
        let runV ← u32TryIntoI32 runBits
        let isS := runV % 3
        pure (runV - isS, isS - 1, st3)
      else
        pure (run, (0 : Int), st2)
    if run1 > 0 then
      -- (the out-of-buffer diagnostic at lines 107-110 is commented out)
      let iters := (run1.toNat + 2) / 3
      match runLoopR buf toF sel smallidx sizesmall smallnum iters true
          ⟨0, 0, 0⟩ prev positions st3 readIdx writeIdx [] with
      | none => none
      | some (.retOk positions1 trace) => some (.retOk positions1 trace)
      | some (.cont positions1 st4 _coord prev1 readIdx1 writeIdx1 trace) => do
          let _ := prev1
          let (smallidx2, smallnum2, smaller2, sizesmall2) ←
            adaptSmallidx isSmaller1 smallidx smallnum smaller
          some (.cont positions1 st4 run1 smallidx2 smallnum2 smaller2 sizesmall2
            (readIdx1 + 1) writeIdx1 trace)
    else
      match writePosition toF sel positions writeIdx coord1 with
      | none => some (.retOk positions [coord1])
      | some (positions1, writeIdx1) => do
          let (smallidx2, smallnum2, smaller2, sizesmall2) ←
            adaptSmallidx isSmaller1 smallidx smallnum smaller
          some (.cont positions1 st3 run1 smallidx2 smallnum2 smaller2 sizesmall2
            (readIdx + 1) writeIdx1 [coord1])
  else none

/-- The outer loop of reader.rs `read_compressed_positions`, driven by the
gas parameter (each iteration consumes at least one encoded atom, so
`natoms` gas suffices). -/
def mainLoopR {A : Type} (buf : List Nat) (toF : Int → A) (sel : AtomSelection)
    (minint : Coord) (bitsize : Nat) (bitsizeint : Sizes) (sizeint : Sizes)
    (natoms : Nat) :
    Nat → List A → DecodeState → Int → Nat → Int → Int → Sizes → Nat → Nat →
    Option (List A)
  | 0, positions, _, _, _, _, _, _, readIdx, _ =>
      if readIdx < natoms then none else some positions
  | gas + 1, positions, st, run, smallidx, smallnum, smaller, sizesmall,
      readIdx, writeIdx =>
      if readIdx < natoms then
        match outerStepR buf toF sel minint bitsize bitsizeint sizeint positions st
            run smallidx smallnum smaller sizesmall readIdx writeIdx with
        | none => none
        | some (.retOk positions1 _) => some positions1
        | some (.cont positions1 st1 run1 smallidx1 smallnum1 smaller1 sizesmall1
            readIdx1 writeIdx1 _) =>
            mainLoopR buf toF sel minint bitsize bitsizeint sizeint natoms gas
              positions1 st1 run1 smallidx1 smallnum1 smaller1 sizesmall1
              readIdx1 writeIdx1
      else some positions

/-- Embedding of reader.rs `read_compressed_positions` (lines 28-176),
starting from the already-parsed preamble values (`minint`, `maxint`,
`smallidx`) and the opaque payload `buf`.  `positions` is the caller's
buffer, `sel` the atom selection. -/
def readCompressedPositions {A : Type} (buf : List Nat) (toF : Int → A)
    (sel : AtomSelection) (minint maxint : Coord) (smallidx : Nat)
    (positions : List A) : Option (List A) := do
  if positions.length % 3 ≠ 0 then none else
  let natoms := positions.length / 3
  let (sizeint, bitsizeint, bitsize) ← calcSizeint minint maxint
  let (smaller, smallnum, sizesmall) ← preludeInit smallidx
  mainLoopR buf toF sel minint bitsize bitsizeint sizeint natoms natoms
    positions ⟨0, 0, 0⟩ 0 smallidx smallnum smaller sizesmall 0 0

/-- Whether `data.get_mut(w*3..(w+1)*3)` succeeds in lib.rs
`read_compressed_floats`. -/
def chunkAvailL {A : Type} (positions : List A) (w : Nat) : Bool :=
  decide ((w + 1) * 3 ≤ positions.length)

/-- The loop-carried state of lib.rs `read_compressed_floats`. -/
structure LibStepSt (A : Type) where
  positions : List A
  st : DecodeState
  run : Int
  smallidx : Nat
  smallnum : Int
  smaller : Int
  sizesmall : Sizes
  readIdx : Nat
  writeIdx : Nat

/-- The run loop of lib.rs `read_compressed_floats` (lines 514-552).  Unlike
the reader.rs loop there is no selector: every position is written.  On the
first item (`k == 0`) the refetch after emitting the post-swap `prevcoord`
is an `unwrap` (line 538), a panic when the buffer is exhausted; only the
common refetch at the end of an item breaks out of the loop. -/
def runLoopL {A : Type} (buf : List Nat) (toF : Int → A)
    (smallidx : Nat) (sizesmall : Sizes) (smallnum : Int) :
    Nat → Bool → Coord → Coord → List A → DecodeState → Nat → Nat →
    Option (List A × DecodeState × Coord × Coord × Nat × Nat)
  | 0, _, coord, prev, positions, st, readIdx, writeIdx =>
      some (positions, st, coord, prev, readIdx, writeIdx)
  | iters + 1, first, coord, prev, positions, st, readIdx, writeIdx =>
      match decodeintsL buf st smallidx sizesmall coord with
      | none => none
      | some (coord1, st1) =>
          let readIdx1 := readIdx + 1
          let coord2 := offsetCoord coord1 prev smallnum
          if first then
            let coord3 := prev
            let prev3 := coord2
            let positions1 := setTriple toF positions writeIdx prev3
            let writeIdx1 := writeIdx + 1
            if chunkAvailL positions1 writeIdx1 then
              let positions2 := setTriple toF positions1 writeIdx1 coord3
              let writeIdx2 := writeIdx1 + 1
              if chunkAvailL positions2 writeIdx2 then
                runLoopL buf toF smallidx sizesmall smallnum iters false
                  coord3 prev3 positions2 st1 readIdx1 writeIdx2
              else
                some (positions2, st1, coord3, prev3, readIdx1, writeIdx2)
            else none
          else
            let prev3 := coord2
            let positions1 := setTriple toF positions writeIdx coord2
            let writeIdx1 := writeIdx + 1
            if chunkAvailL positions1 writeIdx1 then
              runLoopL buf toF smallidx sizesmall smallnum iters false
                coord2 prev3 positions1 st1 readIdx1 writeIdx1
            else
              some (positions1, st1, coord2, prev3, readIdx1, writeIdx1)

/-- One iteration of the outer loop of lib.rs `read_compressed_floats`
(lines 473-578), including the explicit panic
`attempt to write a run beyond the positions buffer` when
`run > 0 && write_idx * 3 + run as usize > n` (lines 507-509). -/
def outerStepL {A : Type} (buf : List Nat) (toF : Int → A)
    (minint : Coord) (bitsize : Nat) (bitsizeint : Sizes) (sizeint : Sizes)
    (s : LibStepSt A) : Option (LibStepSt A) := do
  let n := s.positions.length
  if chunkAvailL s.positions s.writeIdx then
    let (coord0, st1) ←
      if bitsize = 0 then do
        let (c0, sa) ← decodebits buf s.st bitsizeint.x
        let x ← u32TryIntoI32 c0
        let (c1, sb) ← decodebits buf sa bitsizeint.y
        let y ← u32TryIntoI32 c1
        let (c2, sc) ← decodebits buf sb bitsizeint.z
        let z ← u32TryIntoI32 c2
        pure ((⟨x, y, z⟩ : Coord), sc)
      else
        decodeintsL buf s.st bitsize sizeint ⟨0, 0, 0⟩
    let coord1 : Coord :=
      ⟨wrap32 (coord0.x + minint.x), wrap32 (coord0.y + minint.y),
       wrap32 (coord0.z + minint.z)⟩
    let prev := coord1
    let (flagBits, st2) ← decodebits buf st1 1
    let flagByte ← u32TryIntoU8 flagBits
    let flag := decide (flagByte > 0)
    let (run1, isSmaller1, st3) ←
      if flag then do
        let (runBits, st3) ← decodebits buf st2 5
        let runV ← u32TryIntoI32 runBits
        let isS := runV % 3
        pure (runV - isS, isS - 1, st3)
      else
        pure (s.run, (0 : Int), st2)
    if run1 > 0 ∧ s.writeIdx * 3 + run1.toNat > n then
      none
    else if run1 > 0 then
      let iters := (run1.toNat + 2) / 3
      match runLoopL buf toF s.smallidx s.sizesmall s.smallnum iters true
          ⟨0, 0, 0⟩ prev s.positions st3 s.readIdx s.writeIdx with
      | none => none
      | some (positions1, st4, _coord, _prev1, readIdx1, writeIdx1) => do
          let (smallidx2, smallnum2, smaller2, sizesmall2) ←
            adaptSmallidx isSmaller1 s.smallidx s.smallnum s.smaller
          some ⟨positions1, st4, run1, smallidx2, smallnum2, smaller2, sizesmall2,
            readIdx1 + 1, writeIdx1⟩
    else
      let positions1 := setTriple toF s.positions s.writeIdx coord1
      let writeIdx1 := s.writeIdx + 1
      let (smallidx2, smallnum2, smaller2, sizesmall2) ←
        adaptSmallidx isSmaller1 s.smallidx s.smallnum s.smaller
      some ⟨positions1, st3, run1, smallidx2, smallnum2, smaller2, sizesmall2,
        s.readIdx + 1, writeIdx1⟩
  else none

/-- The outer loop of lib.rs `read_compressed_floats`, gas-driven. -/
def mainLoopL {A : Type} (buf : List Nat) (toF : Int → A)
    (minint : Coord) (bitsize : Nat) (bitsizeint : Sizes) (sizeint : Sizes)
    (natoms : Nat) : Nat → LibStepSt A → Option (List A)
  | 0, s => if s.readIdx < natoms then none else some s.positions
  | gas + 1, s =>
      if s.readIdx < natoms then
        match outerStepL buf toF minint bitsize bitsizeint sizeint s with
        | none => none
        | some s1 => mainLoopL buf toF minint bitsize bitsizeint sizeint natoms gas s1
      else some s.positions

/-- Embedding of lib.rs `read_compressed_floats` (lines 413-581), starting
from the parsed preamble values and the opaque payload.  The function
allocates its own output buffer of `n` zeros; the zero float is abstracted
as `z0`. -/
def readCompressedFloats {A : Type} (buf : List Nat) (toF : Int → A) (z0 : A)
    (n : Nat) (minint maxint : Coord) (smallidx : Nat) : Option (List A) := do
  if smallidx ≥ MAGICINTS.length then none else
  let (sizeint, bitsizeint, bitsize) ← calcSizeint minint maxint
  let (smaller, smallnum, sizesmall) ← preludeInit smallidx
  let data : List A := List.replicate n z0
  if n % 3 ≠ 0 then none else
  let natoms := n / 3
  mainLoopL buf toF minint bitsize bitsizeint sizeint natoms natoms
    ⟨data, ⟨0, 0, 0⟩, 0, smallidx, smallnum, smaller, sizesmall, 0, 0⟩

/-- Stream bit `i` of a big-endian-bit byte buffer: bit `7 - i % 8` of byte
`i / 8`.  This is the order in which `decodebits` consumes bits. -/
def bitAt (buf : List Nat) (i : Nat) : Bool :=
  (buf.getD (i / 8) 0).testBit (7 - i % 8)

/-- The value of `n` consecutive stream bits starting at position `pos`,
most significant first.  This is the specification-side meaning of
"the next `n` bits of the stream". -/
def streamBits (buf : List Nat) (pos : Nat) : Nat → Nat
  | 0 => 0
  | n + 1 => streamBits buf pos n * 2 + (if bitAt buf (pos + n) then 1 else 0)

end Molly

namespace Molly

/-- The triplet decomposition the specification prescribes for
`read_triplet` when `nbits > 64`: divide the collected big integer by
`sizes[2]` first and then by `sizes[1]`, storing those remainders into
`nums[2]` and `nums[1]`, with the remaining low 32 bits of the quotient in
`nums[0]`.  Stated directly in arithmetic; used only to compare against the
embedded code. -/
def specBigTriplet (v : Nat) (sizes : Sizes) : Coord :=
  ⟨u32AsI32 (v / sizes.z / sizes.y % U32M),
   u32AsI32 (v / sizes.z % sizes.y),
   u32AsI32 (v % sizes.z)⟩

/-- The run-group emission sequence as the specification words it
(spec section 4.4, steps 4-5): each sub-triplet is decoded with
`read_triplet(smallidx, sizesmall)` into `coord`, offset componentwise by
`prevcoord - smallnum`; on the first sub-triplet `coord` and `prevcoord` are
swapped and the post-swap `prevcoord` is emitted immediately before the
post-swap `coord`; every later sub-triplet updates `prevcoord` and is
emitted in encoded order.  Returns the emitted triples and the final bit
cursor. -/
def specRunEmissions (buf : List Nat) (smallidx : Nat) (sizesmall : Sizes)
    (smallnum : Int) :
    Nat → Bool → Coord → Coord → DecodeState → Option (List Coord × DecodeState)
  | 0, _, _, _, st => some ([], st)
  | iters + 1, first, coord, prev, st =>
      match decodeintsR buf st smallidx sizesmall coord with
      | none => none
      | some (coord1, st1) =>
          let coord2 := offsetCoord coord1 prev smallnum
          if first then
            match specRunEmissions buf smallidx sizesmall smallnum iters false
                prev coord2 st1 with
            | none => none
            | some (rest, st2) => some (coord2 :: prev :: rest, st2)
          else
            match specRunEmissions buf smallidx sizesmall smallnum iters false
                coord2 coord2 st1 with
            | none => none
            | some (rest, st2) => some (coord2 :: rest, st2)

/-- Write a list of coordinate triples at consecutive triple indices. -/
def writeTriples {A : Type} (toF : Int → A) :
    List A → Nat → List Coord → List A
  | positions, _, [] => positions
  | positions, w, c :: cs => writeTriples toF (setTriple toF positions w c) (w + 1) cs

/-- The positions buffer held in a `RunRes`. -/
def RunRes.positionsOf {A : Type} : RunRes A → List A
  | .retOk p _ => p
  | .cont p _ _ _ _ _ _ => p

/-- Embedding of lib.rs `read_boxvec` (lib.rs lines 73-81): the nine wire
values are arranged as columns `[b0,b3,b6], [b1,b4,b7], [b2,b5,b8]`.  The
matrix is represented as a function from (column, row) to the entry. -/
def readBoxvecLib {A : Type} (b : Fin 9 → A) : Fin 3 → Fin 3 → A :=
  fun c r => b ⟨c.val + 3 * r.val, by omega⟩

/-- Embedding of reader.rs `read_boxvec` (reader.rs lines 179-188): the nine
wire values are arranged as columns `[b0,b1,b2], [b3,b4,b5], [b6,b7,b8]`. -/
def readBoxvecReader {A : Type} (b : Fin 9 → A) : Fin 3 → Fin 3 → A :=
  fun c r => b ⟨3 * c.val + r.val, by omega⟩

end Molly

namespace Molly

/-- C9 counterexample: the two `read_boxvec` mappings are not equal for
every wire sequence; at the wire sequence `0,1,...,8` they produce
different matrices. -/
theorem readBoxvecLib_ne_readBoxvecReader :
    readBoxvecLib (fun k => k.val) ≠ readBoxvecReader (fun k => k.val) := by
  decide

/-- C9: the two `read_boxvec` embeddings are not equal but transposed: for
every wire sequence, the matrix of lib.rs `read_boxvec` is the transpose of
the matrix of reader.rs `read_boxvec` — the two mappings agree exactly on
symmetric wire matrices. -/
theorem readBoxvecLib_eq_transpose_readBoxvecReader {A : Type} (b : Fin 9 → A) :
    readBoxvecLib b = fun c r => readBoxvecReader b r c := by
  funext c r
  show b _ = b _
  congr 1
  ext
  simp only []
  omega

/-- C7 counterexample: `Until(0).is_included(0)` is `Some(true)`, though the
claim (exclusive upper bound) requires `None` for every `idx >= 0`. -/
theorem until_zero_includes_index_zero :
    (AtomSelection.until_ 0).isIncluded 0 = some true ∧
      (AtomSelection.until_ 0).isIncluded 0 ≠ none := by
  constructor
  · rfl
  · intro h
    simp [AtomSelection.isIncluded, U32M] at h

/-- C7: the upper bound of `Until(k)` is inclusive: for every index below
`2^32` (the index is truncated to u32 first), `is_included` returns
`Some(true)` exactly for `idx ≤ k` and `None` for `idx > k`. -/
theorem until_isIncluded_inclusive (k idx : Nat) (h : idx < U32M) :
    (AtomSelection.until_ k).isIncluded idx =
      if idx ≤ k then some true else none := by
  unfold AtomSelection.isIncluded
  simp only [Nat.mod_eq_of_lt h]

/-- Witness for `until_isIncluded_inclusive` at `k = 7`, `idx = 9`. -/
theorem until_isIncluded_inclusive_witness :
    (9 < U32M) ∧
      ((AtomSelection.until_ 7).isIncluded 9 = if 9 ≤ 7 then some true else none) :=
  ⟨by norm_num [U32M], until_isIncluded_inclusive 7 9 (by norm_num [U32M])⟩

end Molly

namespace Molly

/-- C6 counterexample: at `Range { start := 1, end := None, step := 3 }` and
`idx = 1`, the code returns `Some(false)` although `start ≤ idx` and
`(idx - start) % step = 0`, so the claim requires `Some(true)`. -/
theorem range_isIncluded_plus_start_counterexample :
    (FrameRange.isIncluded ⟨1, none, 3⟩ 1 = some false) ∧
      (1 : Nat) ≤ 1 ∧ ((1 : Nat) - 1) % 3 = 0 := by
  refine ⟨?_, by norm_num, by norm_num⟩
  norm_num [FrameRange.isIncluded, U64M]

/-- C6: `Range::is_included(idx)` is `None` exactly when the end is bounded
by some `e ≤ idx`; otherwise it returns `Some(b)` with `b` true iff
`start ≤ idx` and `(idx + start) mod step = 0` (the code adds `start`, it
does not subtract it; the two agree only when `start ≡ -start mod step`).
Stated for inputs whose u64 addition does not wrap. -/
theorem range_isIncluded_spec (r : FrameRange) (idx : Nat) (hstep : 1 ≤ r.step)
    (hadd : idx + r.start < U64M) :
    (r.isIncluded idx = none ↔ ∃ e, r.stop = some e ∧ e ≤ idx) ∧
      (∀ b, r.isIncluded idx = some b →
        (b = true ↔ (r.start ≤ idx ∧ (idx + r.start) % r.step = 0))) := by
  obtain ⟨s, e?, st⟩ := r
  simp only at hadd hstep
  have hmod : (idx + s) % U64M = idx + s := Nat.mod_eq_of_lt hadd
  have hval : ∀ b : Bool,
      (decide (s ≤ idx) && (decide (st = 1) || decide ((idx + s) % U64M % st = 0))) = b →
      (b = true ↔ (s ≤ idx ∧ (idx + s) % st = 0)) := by
    intro b hb
    subst hb
    rw [hmod]
    by_cases hst : st = 1
    · subst hst
      simp [Nat.mod_one]
    · simp [hst, Bool.and_eq_true, decide_eq_true_iff]
  unfold FrameRange.isIncluded
  cases e? with
  | none =>
      refine ⟨by simp, ?_⟩
      intro b hb
      simp only [Option.some.injEq] at hb
      exact hval b hb
  | some e =>
      by_cases he : e ≤ idx
      · simp only [if_pos he]
        exact ⟨by simp [he], by intro b hb; cases hb⟩
      · simp only [if_neg he]
        refine ⟨by simp; omega, ?_⟩
        intro b hb
        simp only [Option.some.injEq] at hb
        exact hval b hb

/-- Witness for `range_isIncluded_spec` at `Range {2, Some 10, 2}`, `idx = 4`. -/
theorem range_isIncluded_spec_witness :
    (1 ≤ (2 : Nat)) ∧ ((4 : Nat) + 2 < U64M) ∧
      (((FrameRange.isIncluded ⟨2, some 10, 2⟩ 4 = none) ↔
          ∃ e, (some 10 : Option Nat) = some e ∧ e ≤ 4) ∧
        (∀ b, FrameRange.isIncluded ⟨2, some 10, 2⟩ 4 = some b →
          (b = true ↔ ((2 : Nat) ≤ 4 ∧ ((4 : Nat) + 2) % 2 = 0)))) :=
  ⟨by norm_num, by norm_num [U64M],
    range_isIncluded_spec ⟨2, some 10, 2⟩ 4 (by norm_num) (by norm_num [U64M])⟩

end Molly

namespace Molly

/-- C4: the initialisation panics for `smallidx = 0` — the usize
subtraction `smallidx - 1` underflows (checked build) or wraps to
`2^64 - 1` and indexes MAGICINTS out of bounds (unchecked build) — although
the claim admits every `0 ≤ smallidx < 73`.  For every other admissible
`smallidx` the claimed values `MAGICINTS[max(FIRSTIDX, smallidx-1)]/2`,
`MAGICINTS[smallidx]/2` and `[MAGICINTS[smallidx]; 3]` are produced. -/
theorem preludeInit_panics_at_zero :
    preludeInit 0 = none ∧
      ((List.range 73).all fun s =>
        decide (s = 0) ||
          decide (preludeInit s = some (MAGICINTS.getD (max FIRSTIDX (s - 1)) 0 / 2,
            MAGICINTS.getD s 0 / 2,
            ⟨i32AsU32 (MAGICINTS.getD s 0), i32AsU32 (MAGICINTS.getD s 0),
              i32AsU32 (MAGICINTS.getD s 0)⟩))) = true := by
  constructor
  · rfl
  · decide

/-- C3: the `nbits > 64` path of reader.rs `decodeints` divides by
`sizes[1]` and then `sizes[0]` (its loop is `for i in (0..2).rev()`),
storing remainders into `nums[1]` and `nums[0]` (the latter immediately
overwritten by the little-endian low bits) and leaving `nums[2]` untouched.
On the 72-bit stream with value 1 and sizes `[2^24, 2^24, 2^24]` the code
yields `[0, 1, 0]`, while the decomposition of the claim (divide by
`sizes[2]` then `sizes[1]`, remainders into `nums[2]`, `nums[1]`) yields
`[0, 0, 1]`. -/
theorem decodeints_big_path_divides_wrong_sizes :
    decodeintsR [1, 0, 0, 0, 0, 0, 0, 0, 0] ⟨0, 0, 0⟩ 72
        ⟨16777216, 16777216, 16777216⟩ ⟨0, 0, 0⟩ =
      some (⟨0, 1, 0⟩, ⟨9, 0, 0⟩) ∧
      specBigTriplet 1 ⟨16777216, 16777216, 16777216⟩ = ⟨0, 0, 1⟩ ∧
      (⟨0, 1, 0⟩ : Coord) ≠ ⟨0, 0, 1⟩ := by
  refine ⟨by decide, by decide, by decide⟩

/-- C2 counterexample: with 32 requested bits the mask `(1u32 << 32) - 1`
overflows (an unchecked build masks the shift amount, giving mask 0), so
`decodebits` returns 0 instead of the full 32-bit value 0xABCDEF12 — and a
checked build panics at the shift instead. -/
theorem decodebits_32_loses_value :
    decodebits [171, 205, 239, 18] ⟨0, 0, 0⟩ 32 = some (0, ⟨4, 0, 18⟩) ∧
      streamBits [171, 205, 239, 18] 0 32 = 2882400018 ∧
      (0 : Nat) ≠ 2882400018 := by
  refine ⟨by decide, by decide, by decide⟩

end Molly

namespace Molly

/-- Setting mask bits preserves the mask length. -/
theorem foldl_set_length (L : List Nat) (base : List Bool) :
    (L.foldl (fun m idx => m.set idx true) base).length = base.length := by
  induction L generalizing base with
  | nil => rfl
  | cons x xs ih =>
      rw [List.foldl_cons, ih (base.set x true), List.length_set]

/-- The seed of a running maximum bounds it from below. -/
theorem le_foldl_max (a : Nat) (xs : List Nat) : a ≤ xs.foldl max a := by
  induction xs generalizing a with
  | nil => exact Nat.le_refl a
  | cons y ys ih => exact Nat.le_trans (Nat.le_max_left a y) (ih (max a y))

/-- Every member of a list is bounded by its running maximum. -/
theorem mem_le_foldl_max (xs : List Nat) (a x : Nat) (hx : x ∈ xs) :
    x ≤ xs.foldl max a := by
  induction xs generalizing a with
  | nil => cases hx
  | cons y ys ih =>
      rcases List.mem_cons.mp hx with rfl | hmem
      · exact Nat.le_trans (Nat.le_max_right a x) (le_foldl_max (max a x) ys)
      · exact ih (max a y) hmem

/-- Value of a mask after setting all listed in-range indices to true. -/
theorem foldl_set_getD (L : List Nat) (base : List Bool) (j : Nat)
    (hbnd : ∀ x ∈ L, x < base.length) :
    (L.foldl (fun m idx => m.set idx true) base).getD j false
      = (base.getD j false || decide (j ∈ L)) := by
  induction L generalizing base with
  | nil => simp
  | cons x xs ih =>
      rw [List.foldl_cons]
      rw [ih (base.set x true) (by
        intro y hy
        rw [List.length_set]
        exact hbnd y (List.mem_cons_of_mem x hy))]
      by_cases hj : j = x
      · subst hj
        have hx : j < base.length := hbnd j (List.mem_cons_self j xs)
        simp [List.getD_eq_getElem?_getD, List.getElem?_set_self',
          List.getElem?_eq_getElem hx]
      · rw [show (base.set x true).getD j false = base.getD j false by
          simp [List.getD_eq_getElem?_getD, List.getElem?_set_ne (fun h => hj h.symm)]]
        simp [List.mem_cons, hj]

/-- C8 counterexample: indices are truncated to u32 before the mask lookup,
so `from_index_list([0]).is_included(2^32)` is `Some(true)` although
`2^32 ≥ max(L) + 1` and the claim requires `None` there. -/
theorem fromIndexList_truncates_large_index :
    (AtomSelection.fromIndexList [0]).isIncluded U32M = some true ∧
      (0 : Nat) + 1 ≤ U32M := by
  exact ⟨by decide, by norm_num [U32M]⟩

/-- C8: for indices below `2^32`, `from_index_list(L).is_included(i)` equals
`Some(i ∈ L)` for `i < max(L) + 1` and `None` for `i ≥ max(L) + 1` (the mask
has length `max(L) + 1` with true exactly at listed indices); for the empty
list every index gives `None`. -/
theorem fromIndexList_isIncluded_spec (L : List Nat) (i : Nat) (hi : i < U32M) :
    (L = [] → (AtomSelection.fromIndexList L).isIncluded i = none) ∧
      (∀ a as, L = a :: as →
        ((i < as.foldl max a + 1 →
            (AtomSelection.fromIndexList L).isIncluded i = some (decide (i ∈ L))) ∧
          (as.foldl max a + 1 ≤ i →
            (AtomSelection.fromIndexList L).isIncluded i = none))) := by
  constructor
  · rintro rfl
    simp [AtomSelection.fromIndexList, AtomSelection.isIncluded]
  · rintro a as rfl
    set m := (a :: as).foldl (fun m idx => m.set idx true)
      (List.replicate (as.foldl max a + 1) false) with hm
    have hlen : m.length = as.foldl max a + 1 := by
      rw [hm, foldl_set_length, List.length_replicate]
    have hinc : (AtomSelection.fromIndexList (a :: as)).isIncluded i = m.get? i := by
      show m.get? (i % U32M) = m.get? i
      rw [Nat.mod_eq_of_lt hi]
    have hbnd : ∀ x ∈ a :: as,
        x < (List.replicate (as.foldl max a + 1) false).length := by
      intro x hx
      rw [List.length_replicate]
      rcases List.mem_cons.mp hx with rfl | h
      · exact Nat.lt_succ_of_le (le_foldl_max x as)
      · exact Nat.lt_succ_of_le (mem_le_foldl_max as a x h)
    constructor
    · intro hlt
      rw [hinc]
      have hmem : i < m.length := by omega
      rw [show m.get? i = some (m.getD i false) by
        simp [List.get?_eq_getElem?, List.getD_eq_getElem?_getD,
          List.getElem?_eq_getElem hmem]]
      congr 1
      rw [hm, foldl_set_getD _ _ _ hbnd]
      rw [show (List.replicate (as.foldl max a + 1) false).getD i false = false by
        simp [List.getD_eq_getElem?_getD, List.getElem?_replicate]
        split <;> rfl]
      rw [Bool.false_or]
    · intro hge
      rw [hinc]
      simp only [List.get?_eq_getElem?]
      rw [List.getElem?_eq_none]
      omega

/-- Witness for `fromIndexList_isIncluded_spec` at `L = [2, 0]`, `i = 1`. -/
theorem fromIndexList_isIncluded_spec_witness :
    ((1 : Nat) < U32M) ∧
      (([2, 0] : List Nat) = [] →
        (AtomSelection.fromIndexList [2, 0]).isIncluded 1 = none) ∧
      (∀ a as, ([2, 0] : List Nat) = a :: as →
        ((1 < as.foldl max a + 1 →
            (AtomSelection.fromIndexList [2, 0]).isIncluded 1 =
              some (decide (1 ∈ ([2, 0] : List Nat)))) ∧
          (as.foldl max a + 1 ≤ 1 →
            (AtomSelection.fromIndexList [2, 0]).isIncluded 1 = none))) :=
  ⟨by norm_num [U32M], fromIndexList_isIncluded_spec [2, 0] 1 (by norm_num [U32M])⟩

end Molly

namespace Molly

/-- Writing a triple never changes the positions buffer's length. -/
theorem setTriple_length {A : Type} (toF : Int → A) (positions : List A)
    (w : Nat) (c : Coord) :
    (setTriple toF positions w c).length = positions.length := by
  simp [setTriple]

/-- A successful `write_position!` never changes the buffer's length. -/
theorem writePosition_length {A : Type} (toF : Int → A) (sel : AtomSelection)
    (positions : List A) (w : Nat) (c : Coord) (p1 : List A) (w1 : Nat)
    (h : writePosition toF sel positions w c = some (p1, w1)) :
    p1.length = positions.length := by
  unfold writePosition at h
  cases hsel : sel.isIncluded w with
  | none => rw [hsel] at h; cases h
  | some b =>
      rw [hsel] at h
      cases b with
      | false => cases h; rfl
      | true => cases h; exact setTriple_length toF positions w c

/-- C5 counterexample: a compressed stream whose run (6) extends past the
3-float positions buffer makes lib.rs `read_compressed_floats` hit its
explicit panic `attempt to write a run beyond the positions buffer`
(`none`), although the claim requires success.  The stream starts with byte
0x4C: a zero header triple (1 bit, since minint = maxint gives bitsize 1),
flag 1, and the 5-bit run value 6.  The same stream decodes without error
through reader.rs `read_compressed_positions`, which emits the first
post-swap position and stops at the end of the buffer. -/
theorem readCompressedFloats_panics_on_long_run :
    (readCompressedFloats [76, 0, 0, 0] (fun i => i) (0 : Int) 3
        ⟨0, 0, 0⟩ ⟨0, 0, 0⟩ 10 : Option (List Int)) = none ∧
      readCompressedPositions [76, 0, 0, 0] (fun i => i) .all
        ⟨0, 0, 0⟩ ⟨0, 0, 0⟩ 10 (List.replicate 3 (0 : Int)) =
        some [-5, -5, -5] := by
  refine ⟨by decide, by decide⟩

/-- Helper: a `none` (panic) outcome of the reader.rs run loop can only
originate in the bit-stream decode. -/
theorem runLoopR_none_from_decode {A : Type} (buf : List Nat)
    (toF : Int → A) (sel : AtomSelection) (smallidx : Nat) (sizesmall : Sizes)
    (smallnum : Int) :
    ∀ (iters : Nat) (first : Bool) (coord prev : Coord) (positions : List A)
      (st : DecodeState) (readIdx writeIdx : Nat) (trace : List Coord),
      runLoopR buf toF sel smallidx sizesmall smallnum iters first coord prev
          positions st readIdx writeIdx trace = none →
        ∃ st1 c1, decodeintsR buf st1 smallidx sizesmall c1 = none := by
  intro iters
  induction iters with
  | zero => intro first coord prev positions st readIdx writeIdx trace h; cases h
  | succ n ih =>
      intro first coord prev positions st readIdx writeIdx trace h
      rw [runLoopR] at h
      cases hdec : decodeintsR buf st smallidx sizesmall coord with
      | none => exact ⟨st, coord, hdec⟩
      | some r =>
          rw [hdec] at h
          obtain ⟨coord1, st1⟩ := r
          dsimp only at h
          cases first with
          | true =>
              rw [if_pos rfl] at h
              cases hw : writePosition toF sel positions writeIdx
                  (offsetCoord coord1 prev smallnum) with
              | none => rw [hw] at h; cases h
              | some pw =>
                  rw [hw] at h
                  obtain ⟨positions1, writeIdx1⟩ := pw
                  dsimp only at h
                  split at h
                  · cases hw2 : writePosition toF sel positions1 writeIdx1 prev with
                    | none => rw [hw2] at h; cases h
                    | some pw2 =>
                        rw [hw2] at h
                        obtain ⟨positions2, writeIdx2⟩ := pw2
                        dsimp only at h
                        split at h
                        · exact ih false prev (offsetCoord coord1 prev smallnum)
                            positions2 st1 (readIdx + 1) writeIdx2 _ h
                        · cases h
                  · cases h
          | false =>
              rw [if_neg (by simp)] at h
              cases hw : writePosition toF sel positions writeIdx
                  (offsetCoord coord1 prev smallnum) with
              | none => rw [hw] at h; cases h
              | some pw =>
                  rw [hw] at h
                  obtain ⟨positions1, writeIdx1⟩ := pw
                  dsimp only at h
                  split at h
                  · exact ih false (offsetCoord coord1 prev smallnum)
                      (offsetCoord coord1 prev smallnum) positions1 st1
                      (readIdx + 1) writeIdx1 _ h
                  · cases h

/-- Helper: every non-panic outcome of the reader.rs run loop keeps the
positions buffer's length. -/
theorem runLoopR_positions_length {A : Type} (buf : List Nat)
    (toF : Int → A) (sel : AtomSelection) (smallidx : Nat) (sizesmall : Sizes)
    (smallnum : Int) :
    ∀ (iters : Nat) (first : Bool) (coord prev : Coord) (positions : List A)
      (st : DecodeState) (readIdx writeIdx : Nat) (trace : List Coord)
      (res : RunRes A),
      runLoopR buf toF sel smallidx sizesmall smallnum iters first coord prev
          positions st readIdx writeIdx trace = some res →
        res.positionsOf.length = positions.length := by
  intro iters
  induction iters with
  | zero =>
      intro first coord prev positions st readIdx writeIdx trace res h
      cases h; rfl
  | succ n ih =>
      intro first coord prev positions st readIdx writeIdx trace res h
      rw [runLoopR] at h
      cases hdec : decodeintsR buf st smallidx sizesmall coord with
      | none => rw [hdec] at h; cases h
      | some r =>
          rw [hdec] at h
          obtain ⟨coord1, st1⟩ := r
          dsimp only at h
          cases first with
          | true =>
              rw [if_pos rfl] at h
              cases hw : writePosition toF sel positions writeIdx
                  (offsetCoord coord1 prev smallnum) with
              | none => rw [hw] at h; cases h; rfl
              | some pw =>
                  rw [hw] at h
                  obtain ⟨positions1, writeIdx1⟩ := pw
                  have hl1 := writePosition_length toF sel positions writeIdx _ _ _ hw
                  dsimp only at h
                  split at h
                  · cases hw2 : writePosition toF sel positions1 writeIdx1 prev with
                    | none => rw [hw2] at h; cases h; exact hl1
                    | some pw2 =>
                        rw [hw2] at h
                        obtain ⟨positions2, writeIdx2⟩ := pw2
                        have hl2 := writePosition_length toF sel positions1 writeIdx1
                          _ _ _ hw2
                        dsimp only at h
                        split at h
                        · have := ih false prev (offsetCoord coord1 prev smallnum)
                            positions2 st1 (readIdx + 1) writeIdx2 _ res h
                          omega
                        · cases h
                          show positions2.length = positions.length
                          omega
                  · cases h; exact hl1
          | false =>
              rw [if_neg (by simp)] at h
              cases hw : writePosition toF sel positions writeIdx
                  (offsetCoord coord1 prev smallnum) with
              | none => rw [hw] at h; cases h; rfl
              | some pw =>
                  rw [hw] at h
                  obtain ⟨positions1, writeIdx1⟩ := pw
                  have hl1 := writePosition_length toF sel positions writeIdx _ _ _ hw
                  dsimp only at h
                  split at h
                  · have := ih false (offsetCoord coord1 prev smallnum)
                      (offsetCoord coord1 prev smallnum) positions1 st1
                      (readIdx + 1) writeIdx1 _ res h
                    omega
                  · cases h; exact hl1

/-- C5: in reader.rs's `read_compressed_positions` the run loop never fails
because of the positions buffer: a `none` (panic) outcome can only come from
the bit-stream decode (`decodeints`), and every successful or early-return
outcome leaves the buffer's length unchanged — exhaustion of the buffer or
the selector only stops emission (and, unlike the claim says, also stops the
consumption of the remaining run sub-triplets, via `break`).  lib.rs's
`read_compressed_floats` instead panics up front on such a run
(counterexample). -/
theorem runLoopR_buffer_exhaustion_not_error {A : Type} (buf : List Nat)
    (toF : Int → A) (sel : AtomSelection) (smallidx : Nat) (sizesmall : Sizes)
    (smallnum : Int) (iters : Nat) (first : Bool) (coord prev : Coord)
    (positions : List A) (st : DecodeState) (readIdx writeIdx : Nat)
    (trace : List Coord) :
    (runLoopR buf toF sel smallidx sizesmall smallnum iters first coord prev
        positions st readIdx writeIdx trace = none →
      ∃ st1 c1, decodeintsR buf st1 smallidx sizesmall c1 = none) ∧
      (∀ res, runLoopR buf toF sel smallidx sizesmall smallnum iters first coord
          prev positions st readIdx writeIdx trace = some res →
        res.positionsOf.length = positions.length) :=
  ⟨runLoopR_none_from_decode buf toF sel smallidx sizesmall smallnum iters first
      coord prev positions st readIdx writeIdx trace,
    fun res h => runLoopR_positions_length buf toF sel smallidx sizesmall smallnum
      iters first coord prev positions st readIdx writeIdx trace res h⟩

end Molly

namespace Molly

/-- Witness for `runLoopR_buffer_exhaustion_not_error`: a concrete one-item
run whose single post-swap emission fills the 3-float buffer; the loop
breaks and the buffer length is unchanged. -/
theorem runLoopR_buffer_exhaustion_not_error_witness :
    (RunRes.cont [5, 5, 5] ⟨2, 6, 0⟩ ⟨10, 10, 10⟩ ⟨5, 5, 5⟩ 1 1
        [⟨5, 5, 5⟩] : RunRes Int).positionsOf.length =
      (List.replicate 3 (0 : Int)).length :=
  (runLoopR_buffer_exhaustion_not_error [0, 0, 0, 0] (fun i => i)
      AtomSelection.all 10 ⟨10, 10, 10⟩ 5 1 true ⟨0, 0, 0⟩ ⟨10, 10, 10⟩
      (List.replicate 3 (0 : Int)) ⟨0, 0, 0⟩ 0 0 []).2 _ (by rfl)

end Molly

namespace Molly

/-- Helper: the spec-side run group emits exactly one triple per later
(`k > 0`) sub-triplet. -/
theorem specRunEmissions_false_length (buf : List Nat) (smallidx : Nat)
    (sizesmall : Sizes) (smallnum : Int) :
    ∀ (iters : Nat) (coord prev : Coord) (st : DecodeState) (emis : List Coord)
      (st2 : DecodeState),
      specRunEmissions buf smallidx sizesmall smallnum iters false coord prev st
          = some (emis, st2) →
        emis.length = iters := by
  intro iters
  induction iters with
  | zero => intro coord prev st emis st2 h; cases h; rfl
  | succ n ih =>
      intro coord prev st emis st2 h
      rw [specRunEmissions] at h
      cases hdec : decodeintsR buf st smallidx sizesmall coord with
      | none => rw [hdec] at h; cases h
      | some r =>
          rw [hdec] at h
          obtain ⟨coord1, st1⟩ := r
          dsimp only at h
          rw [if_neg (by simp)] at h
          cases hrest : specRunEmissions buf smallidx sizesmall smallnum n false
              (offsetCoord coord1 prev smallnum)
              (offsetCoord coord1 prev smallnum) st1 with
          | none => rw [hrest] at h; cases h
          | some r2 =>
              rw [hrest] at h
              obtain ⟨rest, st3⟩ := r2
              cases h
              simpa using ih _ _ st1 rest st2 hrest

/-- Helper: with the `All` selector and enough remaining capacity, the
`k > 0` tail of the reader.rs run loop writes exactly the spec-side
emission sequence at consecutive triple indices and records it in the
trace. -/
theorem runLoopR_false_eq_spec {A : Type} (buf : List Nat) (toF : Int → A)
    (smallidx : Nat) (sizesmall : Sizes) (smallnum : Int) :
    ∀ (iters : Nat) (coord prev : Coord) (positions : List A) (st : DecodeState)
      (readIdx writeIdx : Nat) (trace : List Coord) (emis : List Coord)
      (st2 : DecodeState),
      specRunEmissions buf smallidx sizesmall smallnum iters false coord prev st
          = some (emis, st2) →
        writeIdx + emis.length ≤ positions.length / 3 →
        ∃ c p, runLoopR buf toF .all smallidx sizesmall smallnum iters false coord
            prev positions st readIdx writeIdx trace =
          some (.cont (writeTriples toF positions writeIdx emis) st2 c p
            (readIdx + iters) (writeIdx + emis.length) (trace ++ emis)) := by
  intro iters
  induction iters with
  | zero =>
      intro coord prev positions st readIdx writeIdx trace emis st2 h _
      cases h
      exact ⟨coord, prev, by simp [runLoopR, writeTriples]⟩
  | succ n ih =>
      intro coord prev positions st readIdx writeIdx trace emis st2 h hcap
      rw [specRunEmissions] at h
      cases hdec : decodeintsR buf st smallidx sizesmall coord with
      | none => rw [hdec] at h; cases h
      | some r =>
          rw [hdec] at h
          obtain ⟨coord1, st1⟩ := r
          dsimp only at h
          rw [if_neg (by simp)] at h
          cases hrest : specRunEmissions buf smallidx sizesmall smallnum n false
              (offsetCoord coord1 prev smallnum)
              (offsetCoord coord1 prev smallnum) st1 with
          | none => rw [hrest] at h; cases h
          | some r2 =>
              rw [hrest] at h
              obtain ⟨rest, st3⟩ := r2
              cases h
              have hlen : rest.length = n :=
                specRunEmissions_false_length buf smallidx sizesmall smallnum n
                  _ _ st1 rest st2 hrest
              rw [runLoopR, hdec]
              dsimp only
              rw [if_neg (by simp)]
              rw [show writePosition toF .all positions writeIdx
                    (offsetCoord coord1 prev smallnum) =
                  some (setTriple toF positions writeIdx
                    (offsetCoord coord1 prev smallnum), writeIdx + 1) from rfl]
              dsimp only
              by_cases hca : writeIdx + 1 < positions.length / 3
              · rw [if_pos (by
                  unfold chunkAvail
                  rw [setTriple_length]
                  exact decide_eq_true hca)]
                obtain ⟨c, p, hrun⟩ := ih (offsetCoord coord1 prev smallnum)
                  (offsetCoord coord1 prev smallnum)
                  (setTriple toF positions writeIdx (offsetCoord coord1 prev smallnum))
                  st1 (readIdx + 1) (writeIdx + 1)
                  (trace ++ [offsetCoord coord1 prev smallnum]) rest st2 hrest
                  (by rw [setTriple_length]; simp at hcap ⊢; omega)
                refine ⟨c, p, ?_⟩
                rw [hrun]
                have e1 : readIdx + 1 + n = readIdx + (n + 1) := by omega
                have e2 : writeIdx + 1 + rest.length
                    = writeIdx + (offsetCoord coord1 prev smallnum :: rest).length := by
                  simp [List.length_cons]
                  omega
                have e3 : (trace ++ [offsetCoord coord1 prev smallnum]) ++ rest
                    = trace ++ offsetCoord coord1 prev smallnum :: rest := by
                  simp
                have e4 : writeTriples toF positions writeIdx
                    (offsetCoord coord1 prev smallnum :: rest)
                    = writeTriples toF (setTriple toF positions writeIdx
                        (offsetCoord coord1 prev smallnum)) (writeIdx + 1) rest := rfl
                rw [e1, e2, e3, e4]
              · rw [if_neg (by
                  unfold chunkAvail
                  rw [setTriple_length]
                  simpa using hca)]
                have hn : n = 0 := by
                  simp at hcap
                  omega
                subst hn
                cases hrest
                refine ⟨offsetCoord coord1 prev smallnum,
                  offsetCoord coord1 prev smallnum, ?_⟩
                simp [writeTriples]

end Molly

namespace Molly

/-- C1: for every compressed stream whose header triple is followed by a run
(`run > 0`, i.e. at least one `(0..run).step_by(3)` item), the reader.rs run
loop emits exactly the spec-side sequence: the first sub-triplet is decoded,
offset componentwise by `prevcoord - smallnum`, swapped with `prevcoord`,
and the post-swap `prevcoord` is emitted immediately before the post-swap
`coord` — so the atom encoded second appears before the atom encoded first —
and all later sub-triplets are emitted in encoded order with `prevcoord`
updated to each emitted coord.  Stated under the `All` selector with enough
capacity left in the positions buffer; the emissions land at consecutive
triple indices and in the recorded trace. -/
theorem runLoopR_water_swap {A : Type} (buf : List Nat) (toF : Int → A)
    (smallidx : Nat) (sizesmall : Sizes) (smallnum : Int) (iters : Nat)
    (prev : Coord) (positions : List A) (st : DecodeState)
    (readIdx writeIdx : Nat) (emis : List Coord) (st2 : DecodeState)
    (hspec : specRunEmissions buf smallidx sizesmall smallnum (iters + 1) true
        ⟨0, 0, 0⟩ prev st = some (emis, st2))
    (hcap : writeIdx + emis.length ≤ positions.length / 3) :
    (∃ d st1 rest, decodeintsR buf st smallidx sizesmall ⟨0, 0, 0⟩ = some (d, st1) ∧
        emis = offsetCoord d prev smallnum :: prev :: rest) ∧
      (∃ c p, runLoopR buf toF .all smallidx sizesmall smallnum (iters + 1) true
          ⟨0, 0, 0⟩ prev positions st readIdx writeIdx [] =
        some (.cont (writeTriples toF positions writeIdx emis) st2 c p
          (readIdx + (iters + 1)) (writeIdx + emis.length) emis)) := by
  rw [specRunEmissions] at hspec
  cases hdec : decodeintsR buf st smallidx sizesmall ⟨0, 0, 0⟩ with
  | none => rw [hdec] at hspec; cases hspec
  | some r =>
      rw [hdec] at hspec
      obtain ⟨d, st1⟩ := r
      dsimp only at hspec
      rw [if_pos rfl] at hspec
      cases hrest : specRunEmissions buf smallidx sizesmall smallnum iters false
          prev (offsetCoord d prev smallnum) st1 with
      | none => rw [hrest] at hspec; cases hspec
      | some r2 =>
          rw [hrest] at hspec
          obtain ⟨rest, st3⟩ := r2
          cases hspec
          have hlen : rest.length = iters :=
            specRunEmissions_false_length buf smallidx sizesmall smallnum iters
              _ _ st1 rest st2 hrest
          refine ⟨⟨d, st1, rest, rfl, rfl⟩, ?_⟩
          rw [runLoopR, hdec]
          dsimp only
          rw [if_pos rfl]
          rw [show writePosition toF .all positions writeIdx
                (offsetCoord d prev smallnum) =
              some (setTriple toF positions writeIdx
                (offsetCoord d prev smallnum), writeIdx + 1) from rfl]
          dsimp only
          have hlen2 : (offsetCoord d prev smallnum :: prev :: rest).length
              = rest.length + 2 := by simp
          rw [if_pos (by
            unfold chunkAvail
            rw [setTriple_length]
            refine decide_eq_true ?_
            omega)]
          rw [show writePosition toF .all
                (setTriple toF positions writeIdx (offsetCoord d prev smallnum))
                (writeIdx + 1) prev =
              some (setTriple toF
                (setTriple toF positions writeIdx (offsetCoord d prev smallnum))
                (writeIdx + 1) prev, writeIdx + 2) from rfl]
          dsimp only
          by_cases hca2 : writeIdx + 2 < positions.length / 3
          · rw [if_pos (by
              unfold chunkAvail
              rw [setTriple_length, setTriple_length]
              exact decide_eq_true hca2)]
            obtain ⟨c, p, hrun⟩ := runLoopR_false_eq_spec buf toF smallidx sizesmall
              smallnum iters prev (offsetCoord d prev smallnum)
              (setTriple toF
                (setTriple toF positions writeIdx (offsetCoord d prev smallnum))
                (writeIdx + 1) prev)
              st1 (readIdx + 1) (writeIdx + 2)
              ([] ++ [offsetCoord d prev smallnum, prev]) rest st2 hrest
              (by rw [setTriple_length, setTriple_length]; omega)
            refine ⟨c, p, ?_⟩
            rw [hrun]
            have e1 : readIdx + 1 + iters = readIdx + (iters + 1) := by omega
            have e2 : writeIdx + 2 + rest.length
                = writeIdx + (offsetCoord d prev smallnum :: prev :: rest).length := by
              simp
              omega
            have e3 : ([] ++ [offsetCoord d prev smallnum, prev]) ++ rest
                = offsetCoord d prev smallnum :: prev :: rest := by simp
            have e4 : writeTriples toF positions writeIdx
                (offsetCoord d prev smallnum :: prev :: rest)
                = writeTriples toF (setTriple toF
                    (setTriple toF positions writeIdx (offsetCoord d prev smallnum))
                    (writeIdx + 1) prev) (writeIdx + 2) rest := rfl
            rw [e1, e2, e3, e4]
          · rw [if_neg (by
              unfold chunkAvail
              rw [setTriple_length, setTriple_length]
              simpa using hca2)]
            have hiters : iters = 0 := by omega
            subst hiters
            cases hrest
            exact ⟨prev, offsetCoord d prev smallnum, by simp [writeTriples]⟩

end Molly

namespace Molly

/-- Witness for `runLoopR_water_swap`: a concrete run of one item decoding
the zero triple against `prevcoord = (10,10,10)`, `smallnum = 5`.  The two
emitted positions are the post-swap pair: the second encoded atom
`(5,5,5)` before the first `(10,10,10)`. -/
theorem runLoopR_water_swap_witness :
    (specRunEmissions [0, 0, 0, 0] 10 ⟨10, 10, 10⟩ 5 (0 + 1) true
        ⟨0, 0, 0⟩ ⟨10, 10, 10⟩ ⟨0, 0, 0⟩ =
      some ([⟨5, 5, 5⟩, ⟨10, 10, 10⟩], ⟨2, 6, 0⟩)) ∧
      ((0 : Nat) + ([(⟨5, 5, 5⟩ : Coord), ⟨10, 10, 10⟩] : List Coord).length ≤
        (List.replicate 6 (0 : Int)).length / 3) ∧
      ((∃ d st1 rest,
          decodeintsR [0, 0, 0, 0] ⟨0, 0, 0⟩ 10 ⟨10, 10, 10⟩ ⟨0, 0, 0⟩ =
            some (d, st1) ∧
          ([(⟨5, 5, 5⟩ : Coord), ⟨10, 10, 10⟩] : List Coord) =
            offsetCoord d ⟨10, 10, 10⟩ 5 :: ⟨10, 10, 10⟩ :: rest) ∧
        (∃ c p, runLoopR [0, 0, 0, 0] (fun i => i) .all 10 ⟨10, 10, 10⟩ 5 (0 + 1)
            true ⟨0, 0, 0⟩ ⟨10, 10, 10⟩ (List.replicate 6 (0 : Int)) ⟨0, 0, 0⟩
            0 0 [] =
          some (.cont (writeTriples (fun i => i) (List.replicate 6 (0 : Int)) 0
              [⟨5, 5, 5⟩, ⟨10, 10, 10⟩]) ⟨2, 6, 0⟩ c p (0 + (0 + 1))
            (0 + ([(⟨5, 5, 5⟩ : Coord), ⟨10, 10, 10⟩] : List Coord).length)
            [⟨5, 5, 5⟩, ⟨10, 10, 10⟩]))) :=
  ⟨by decide, by decide,
    runLoopR_water_swap [0, 0, 0, 0] (fun i => i) 10 ⟨10, 10, 10⟩ 5 0
      ⟨10, 10, 10⟩ (List.replicate 6 (0 : Int)) ⟨0, 0, 0⟩ 0 0
      [⟨5, 5, 5⟩, ⟨10, 10, 10⟩] ⟨2, 6, 0⟩ (by decide) (by decide)⟩

end Molly

namespace Molly

/-- State effect of the byte-fetching loop: with enough bytes it succeeds,
advancing `count` by `nbits / 8` and leaving `nbits % 8` bits to extract. -/
theorem decodeLoop_state (buf : List Nat) :
    ∀ (n count lastbits lastbyte num : Nat),
      count + n / 8 ≤ buf.length →
      ∃ lastbyte1 num1,
        decodeLoop buf count lastbits lastbyte num n =
          some (count + n / 8, lastbyte1, num1, n % 8) := by
  intro n
  induction n using Nat.strong_induction_on with
  | _ n ih =>
      intro count lastbits lastbyte num hlen
      by_cases h8 : 8 ≤ n
      · obtain ⟨m, rfl⟩ : ∃ m, n = m + 8 := ⟨n - 8, by omega⟩
        cases hgb : buf.get? count with
        | none =>
            exfalso
            rw [List.get?_eq_getElem?, List.getElem?_eq_none_iff] at hgb
            omega
        | some b =>
            rw [decodeLoop, hgb]
            dsimp only
            obtain ⟨lastbyte1, num1, hrec⟩ := ih m (by omega) (count + 1) lastbits
              ((shl32 lastbyte 8) ||| (b % U32M))
              ((num ||| shl32 (shr32 ((shl32 lastbyte 8) ||| (b % U32M)) lastbits) m) % U32M)
              (by omega)
            refine ⟨lastbyte1, num1, ?_⟩
            rw [hrec]
            have e1 : count + 1 + m / 8 = count + (m + 8) / 8 := by omega
            have e2 : m % 8 = (m + 8) % 8 := by omega
            rw [e1, e2]
      · have hn : n < 8 := by omega
        refine ⟨lastbyte, num, ?_⟩
        have e1 : n / 8 = 0 := by omega
        have e2 : n % 8 = n := by omega
        rw [e1, e2]
        interval_cases n <;> simp [decodeLoop]

/-- State effect of the tail step: it pulls at most one byte and moves the
absolute bit position `8 * count - lastbits` forward by exactly `nbits`. -/
theorem decodeTail_state (buf : List Nat) (count lastbits lastbyte num nbits mask : Nat)
    (hnb : nbits < 8) (hlb : lastbits < 8)
    (hlen : nbits > 0 → lastbits < nbits → count < buf.length) :
    ∃ count1 lastbits1 lastbyte1 num1,
      decodeTail buf count lastbits lastbyte num nbits mask =
          some (count1, lastbits1, lastbyte1, num1) ∧
        count ≤ count1 ∧ count1 ≤ count + 1 ∧ lastbits1 < 8 ∧
        8 * count1 + lastbits = 8 * count + lastbits1 + nbits := by
  unfold decodeTail
  by_cases h0 : nbits > 0
  · rw [if_pos h0]
    by_cases hpull : lastbits < nbits
    · rw [if_pos hpull]
      cases hgb : buf.get? count with
      | none =>
          exfalso
          rw [List.get?_eq_getElem?, List.getElem?_eq_none_iff] at hgb
          have := hlen h0 hpull
          omega
      | some b =>
          refine ⟨count + 1, lastbits + 8 - nbits, _, _, rfl, by omega, by omega,
            by omega, by omega⟩
    · rw [if_neg hpull]
      exact ⟨count, lastbits - nbits, _, _, rfl, by omega, by omega, by omega,
        by omega⟩
  · rw [if_neg h0]
    exact ⟨count, lastbits, _, _, rfl, by omega, by omega, by omega, by omega⟩

/-- C10: the bit cursor stays consistent under every extraction: starting
from a state with `lastbits < 8` and at least four bytes left, `decodebits`
(for `1 ≤ nbits ≤ 32`) and `decodebyte` succeed, the new state again has
`lastbits < 8`, `count` never decreases, and the absolute bit position
`8 * count - lastbits` advances by exactly `nbits` (resp. 8), here phrased
additively as `8 * count1 + lastbits = 8 * count + lastbits1 + nbits`. -/
theorem decode_cursor_invariant (buf : List Nat) (st : DecodeState) (nbits : Nat)
    (h1 : st.lastbits < 8) (h2 : st.count + 4 ≤ buf.length)
    (h3 : 1 ≤ nbits) (h4 : nbits ≤ 32) :
    (∃ v st1, decodebits buf st nbits = some (v, st1) ∧ st1.lastbits < 8 ∧
        st.count ≤ st1.count ∧
        8 * st1.count + st.lastbits = 8 * st.count + st1.lastbits + nbits) ∧
      (∃ v st1, decodebyte buf st = some (v, st1) ∧ st1.lastbits < 8 ∧
        st.count ≤ st1.count ∧
        8 * st1.count + st.lastbits = 8 * st.count + st1.lastbits + 8) := by
  constructor
  · obtain ⟨lastbyte1, num1, hloop⟩ := decodeLoop_state buf nbits st.count st.lastbits
      (st.lastbyte % U32M) 0 (by omega)
    obtain ⟨count1, lastbits1, lastbyte2, num2, htail, hc1, hc2, hlb1, hadv⟩ :=
      decodeTail_state buf (st.count + nbits / 8) st.lastbits lastbyte1 num1
        (nbits % 8) (shl32 1 nbits - 1) (by omega) h1 (fun hp _ => by omega)
    refine ⟨num2 &&& (shl32 1 nbits - 1), ⟨count1, lastbits1, lastbyte2 &&& 255⟩, ?_,
      by dsimp only; omega, by dsimp only; omega, by dsimp only; omega⟩
    unfold decodebits
    rw [hloop]
    simp only [Option.bind_eq_bind, Option.some_bind]
    rw [htail]
    rfl
  · obtain ⟨lastbyte1, num1, hloop⟩ := decodeLoop_state buf 8 st.count st.lastbits
      (st.lastbyte % U32M) 0 (by omega)
    obtain ⟨count1, lastbits1, lastbyte2, num2, htail, hc1, hc2, hlb1, hadv⟩ :=
      decodeTail_state buf (st.count + 8 / 8) st.lastbits lastbyte1 num1
        (8 % 8) 255 (by omega) h1 (fun hp _ => by omega)
    refine ⟨num2 &&& 255, ⟨count1, lastbits1, lastbyte2 &&& 255⟩, ?_,
      by dsimp only; omega, by dsimp only; omega, by dsimp only; omega⟩
    unfold decodebyte
    rw [hloop]
    simp only [Option.bind_eq_bind, Option.some_bind]
    rw [htail]
    rfl

end Molly

namespace Molly

/-- Witness for `decode_cursor_invariant` on the buffer `[1,2,3,4,5]`, a
fresh state, and `nbits = 12`. -/
theorem decode_cursor_invariant_witness :
    ((⟨0, 0, 0⟩ : DecodeState).lastbits < 8) ∧
      ((⟨0, 0, 0⟩ : DecodeState).count + 4 ≤ ([1, 2, 3, 4, 5] : List Nat).length) ∧
      (1 ≤ 12) ∧ ((12 : Nat) ≤ 32) ∧
      ((∃ v st1, decodebits [1, 2, 3, 4, 5] ⟨0, 0, 0⟩ 12 = some (v, st1) ∧
          st1.lastbits < 8 ∧
          (⟨0, 0, 0⟩ : DecodeState).count ≤ st1.count ∧
          8 * st1.count + (⟨0, 0, 0⟩ : DecodeState).lastbits =
            8 * (⟨0, 0, 0⟩ : DecodeState).count + st1.lastbits + 12) ∧
        (∃ v st1, decodebyte [1, 2, 3, 4, 5] ⟨0, 0, 0⟩ = some (v, st1) ∧
          st1.lastbits < 8 ∧
          (⟨0, 0, 0⟩ : DecodeState).count ≤ st1.count ∧
          8 * st1.count + (⟨0, 0, 0⟩ : DecodeState).lastbits =
            8 * (⟨0, 0, 0⟩ : DecodeState).count + st1.lastbits + 8)) :=
  ⟨by decide, by decide, by decide, by decide,
    decode_cursor_invariant [1, 2, 3, 4, 5] ⟨0, 0, 0⟩ 12 (by decide) (by decide)
      (by decide) (by decide)⟩

end Molly

namespace Molly

/-- Bit `t` of an `n`-bit stream read is stream bit `pos + (n - 1 - t)`:
the first stream bit is the most significant bit of the result. -/
theorem testBit_streamBits (buf : List Nat) (pos : Nat) :
    ∀ n t, (streamBits buf pos n).testBit t =
      (decide (t < n) && bitAt buf (pos + (n - 1 - t))) := by
  intro n
  induction n with
  | zero => intro t; simp [streamBits]
  | succ m ih =>
      intro t
      rw [streamBits]
      cases t with
      | zero =>
          rw [show (streamBits buf pos m * 2 +
              (if bitAt buf (pos + m) then 1 else 0)).testBit 0 =
            decide ((streamBits buf pos m * 2 +
              (if bitAt buf (pos + m) then 1 else 0)) % 2 = 1) by
            simp [Nat.testBit_zero]]
          cases hbit : bitAt buf (pos + m) <;> simp [Nat.mul_add_mod, hbit] <;> omega
      | succ u =>
          rw [Nat.testBit_succ]
          rw [show (streamBits buf pos m * 2 +
              (if bitAt buf (pos + m) then 1 else 0)) / 2 = streamBits buf pos m by
            cases bitAt buf (pos + m) <;> simp <;> omega]
          rw [ih u]
          by_cases hu : u < m
          · simp only [decide_eq_true (show u < m from hu),
              decide_eq_true (show u + 1 < m + 1 by omega), Bool.true_and]
            congr 1
            omega
          · simp only [decide_eq_false (show ¬u < m from hu),
              decide_eq_false (show ¬u + 1 < m + 1 by omega), Bool.false_and]

/-- An `n`-bit stream read is below `2^n`. -/
theorem streamBits_lt (buf : List Nat) (pos : Nat) :
    ∀ n, streamBits buf pos n < 2 ^ n := by
  intro n
  induction n with
  | zero => simp [streamBits]
  | succ m ih =>
      rw [streamBits, Nat.pow_succ]
      cases bitAt buf (pos + m) <;> simp <;> omega

/-- Equality of the low `k` bits gives equality modulo `2^k`. -/
theorem mod_two_pow_eq_of_testBit_eq (a b k : Nat)
    (h : ∀ t, t < k → a.testBit t = b.testBit t) : a % 2 ^ k = b % 2 ^ k := by
  refine Nat.eq_of_testBit_eq fun i => ?_
  rw [Nat.testBit_mod_two_pow, Nat.testBit_mod_two_pow]
  by_cases hik : i < k
  · simp [hik, h i hik]
  · simp [hik]

/-- A genuine low byte read from the stream: `bitAt` at offsets inside byte
`count` is `testBit` of that byte. -/
theorem bitAt_byte (buf : List Nat) (count b t : Nat) (ht : t < 8)
    (hgb : buf.get? count = some b) :
    bitAt buf (8 * (count + 1) - 1 - t) = b.testBit t := by
  have hgd : buf.getD count 0 = b := by
    simp only [List.getD_eq_getElem?_getD, List.get?_eq_getElem?] at hgb ⊢
    simp [hgb]
  unfold bitAt
  have e1 : (8 * (count + 1) - 1 - t) / 8 = count := by omega
  have e2 : 7 - (8 * (count + 1) - 1 - t) % 8 = t := by omega
  rw [e1, e2, hgd]

/-- Shifting a fresh buffer byte into the rolling register extends the span
of genuine bits by eight: every register bit below the old span plus eight
still reads the corresponding stream bit just before the new position. -/
theorem regShiftIn (buf : List Nat) (hb : ∀ x ∈ buf, x < 256)
    (count G : Nat) (r b : Nat) (hG : G ≤ 8 * count)
    (hgb : buf.get? count = some b)
    (hr : ∀ t, t < G → t < 32 → r.testBit t = bitAt buf (8 * count - 1 - t)) :
    ∀ t, t < G + 8 → t < 32 →
      ((shl32 r 8) ||| (b % U32M)).testBit t = bitAt buf (8 * (count + 1) - 1 - t) := by
  intro t htG ht32
  have hblt : b < 256 := hb b (List.get?_mem hgb)
  have hbm : b % U32M = b := Nat.mod_eq_of_lt (by unfold U32M; omega)
  rw [Nat.testBit_or, hbm]
  unfold shl32
  rw [show (8 : Nat) % 32 = 8 by norm_num]
  rw [show U32M = 2 ^ 32 by norm_num [U32M], Nat.testBit_mod_two_pow,
    Nat.testBit_shiftLeft]
  by_cases ht8 : t < 8
  · rw [show bitAt buf (8 * (count + 1) - 1 - t) = b.testBit t from
      bitAt_byte buf count b t ht8 hgb]
    simp [ht8, ht32, show ¬(8 ≤ t) by omega]
  · have hbf : b.testBit t = false :=
      Nat.testBit_lt_two_pow (by calc b < 256 := hblt
                                   _ = 2 ^ 8 := by norm_num
                                   _ ≤ 2 ^ t := Nat.pow_le_pow_right (by norm_num) (by omega))
    rw [hbf]
    rw [hr (t - 8) (by omega) (by omega)]
    rw [show 8 * count - 1 - (t - 8) = 8 * (count + 1) - 1 - t by omega]
    simp [ht32, show 8 ≤ t by omega]

end Molly

namespace Molly

/-- The fetch loop is the identity when fewer than eight bits remain. -/
theorem decodeLoop_eq_of_lt (buf : List Nat) (count lastbits lastbyte num n : Nat)
    (h : n < 8) :
    decodeLoop buf count lastbits lastbyte num n = some (count, lastbyte, num, n) := by
  interval_cases n <;> simp [decodeLoop]

/-- Bit-level correctness of the fetch loop: relative to the start position
`pos0` of an `N`-bit extraction, after fetching the whole bytes the
accumulator holds the first `N - N % 8` stream bits in its payload region
and the rolling register stays genuine over the grown span. -/
theorem decodeLoop_bits (buf : List Nat) (hb : ∀ x ∈ buf, x < 256)
    (N pos0 lastbits : Nat) (hN : N ≤ 32) (hlb : lastbits < 8) :
    ∀ n count lastbyte num,
      n ≤ N →
      8 * count = pos0 + (N - n) + lastbits →
      lastbyte < U32M →
      (∀ t, t < lastbits + (N - n) → t < 32 →
        lastbyte.testBit t = bitAt buf (8 * count - 1 - t)) →
      (∀ t, t < N → num.testBit t =
        (decide (n ≤ t) && bitAt buf (pos0 + (N - 1 - t)))) →
      count + n / 8 ≤ buf.length →
      ∃ lastbyte1 num1,
        decodeLoop buf count lastbits lastbyte num n =
            some (count + n / 8, lastbyte1, num1, n % 8) ∧
          lastbyte1 < U32M ∧
          (∀ t, t < lastbits + (N - n % 8) → t < 32 →
            lastbyte1.testBit t = bitAt buf (8 * (count + n / 8) - 1 - t)) ∧
          (∀ t, t < N → num1.testBit t =
            (decide (n % 8 ≤ t) && bitAt buf (pos0 + (N - 1 - t)))) := by
  intro n
  induction n using Nat.strong_induction_on with
  | _ n ih =>
      intro count lastbyte num hnN hcount hblt hreg hnum hlen
      by_cases h8 : 8 ≤ n
      · obtain ⟨m, rfl⟩ : ∃ m, n = m + 8 := ⟨n - 8, by omega⟩
        cases hgb : buf.get? count with
        | none =>
            exfalso
            rw [List.get?_eq_getElem?, List.getElem?_eq_none_iff] at hgb
            omega
        | some b =>
            rw [decodeLoop, hgb]
            dsimp only
            -- the new register and accumulator
            set r1 := (shl32 lastbyte 8) ||| (b % U32M) with hr1
            set num1 := (num ||| shl32 (shr32 r1 lastbits) m) % U32M with hnum1
            have hr1lt : r1 < U32M := by
              rw [hr1]
              have h1 : shl32 lastbyte 8 < U32M := Nat.mod_lt _ (by norm_num [U32M])
              have h2 : b % U32M < U32M := Nat.mod_lt _ (by norm_num [U32M])
              rw [show U32M = 2 ^ 32 by norm_num [U32M]] at h1 h2 ⊢
              exact Nat.or_lt_two_pow h1 h2
            have hreg1 : ∀ t, t < lastbits + (N - m) → t < 32 →
                r1.testBit t = bitAt buf (8 * (count + 1) - 1 - t) := by
              have := regShiftIn buf hb count (lastbits + (N - (m + 8))) lastbyte b
                (by omega) hgb hreg
              intro t ht1 ht2
              exact this t (by omega) ht2
            have hnum1P : ∀ t, t < N → num1.testBit t =
                (decide (m ≤ t) && bitAt buf (pos0 + (N - 1 - t))) := by
              intro t htN
              rw [hnum1]
              rw [show U32M = 2 ^ 32 by norm_num [U32M], Nat.testBit_mod_two_pow]
              rw [Nat.testBit_or]
              unfold shl32 shr32
              rw [show U32M = 2 ^ 32 by norm_num [U32M], Nat.testBit_mod_two_pow,
                Nat.testBit_shiftLeft]
              rw [show m % 32 = m by omega, show lastbits % 32 = lastbits by omega]
              by_cases hmt : m ≤ t
              · -- the contribution region and the already-written region
                rw [hnum t htN]
                by_cases hnt : m + 8 ≤ t
                · -- old payload bit; the contribution repeats it or is zero
                  rw [decide_eq_true hnt, Bool.true_and]
                  by_cases h32 : t - m + lastbits < 32
                  · rw [Nat.testBit_shiftRight]
                    rw [hreg1 (lastbits + (t - m)) (by omega) (by omega)]
                    rw [show 8 * (count + 1) - 1 - (lastbits + (t - m))
                        = pos0 + (N - 1 - t) by omega]
                    simp [show t < 32 by omega, hmt]
                  · have hzero : (r1 >>> lastbits).testBit (t - m) = false := by
                      rw [Nat.testBit_shiftRight]
                      refine Nat.testBit_lt_two_pow ?_
                      calc r1 < U32M := hr1lt
                        _ = 2 ^ 32 := by norm_num [U32M]
                        _ ≤ 2 ^ (lastbits + (t - m)) :=
                            Nat.pow_le_pow_right (by norm_num) (by omega)
                    rw [hzero]
                    simp [show t < 32 by omega, hmt]
                · -- the fresh byte supplies this bit
                  rw [decide_eq_false (show ¬ m + 8 ≤ t from hnt), Bool.false_and]
                  rw [Nat.testBit_shiftRight]
                  rw [hreg1 (lastbits + (t - m)) (by omega) (by omega)]
                  rw [show 8 * (count + 1) - 1 - (lastbits + (t - m))
                      = pos0 + (N - 1 - t) by omega]
                  simp [show t < 32 by omega, hmt]
              · -- below the payload: everything is still zero
                rw [hnum t htN]
                simp [show ¬ m + 8 ≤ t by omega, hmt, htN]
            obtain ⟨lastbyteF, numF, hrec, hltF, hregF, hnumF⟩ := ih m (by omega)
              (count + 1) r1 num1 (by omega) (by omega) hr1lt hreg1 hnum1P (by omega)
            refine ⟨lastbyteF, numF, ?_, hltF, ?_, ?_⟩
            · rw [hrec]
              have e1 : count + 1 + m / 8 = count + (m + 8) / 8 := by omega
              have e2 : m % 8 = (m + 8) % 8 := by omega
              rw [e1, e2]
            · intro t ht1 ht2
              rw [show count + (m + 8) / 8 = count + 1 + m / 8 by omega]
              exact hregF t (by omega) ht2
            · intro t htN
              rw [show (m + 8) % 8 = m % 8 by omega]
              exact hnumF t htN
      · have hn8 : n < 8 := by omega
        refine ⟨lastbyte, num, ?_, hblt, ?_, ?_⟩
        · rw [decodeLoop_eq_of_lt buf count lastbits lastbyte num n hn8]
          rw [show n / 8 = 0 by omega, show n % 8 = n by omega]
          rfl
        · intro t ht1 ht2
          rw [show count + n / 8 = count by omega]
          exact hreg t (by omega) ht2
        · intro t htN
          rw [show n % 8 = n by omega]
          exact hnum t htN

end Molly

namespace Molly

/-- Stream bits just before the cursor live in the previous buffer byte. -/
theorem bitAt_prev_byte (buf : List Nat) (count t : Nat) (ht : t < 8)
    (hc : 1 ≤ count) :
    bitAt buf (8 * count - 1 - t) = (buf.getD (count - 1) 0).testBit t := by
  unfold bitAt
  have e1 : (8 * count - 1 - t) / 8 = count - 1 := by omega
  have e2 : 7 - (8 * count - 1 - t) % 8 = t := by omega
  rw [e1, e2]

/-- The value computed by the tail step of `decodebits`: OR-ing the final
`(register >> lastbits) & mask` contribution into an accumulator that
already holds the whole-byte payload yields exactly the `N` stream bits
from the start position. -/
theorem tailValue (buf : List Nat) (pos0 N : Nat) (hN : N ≤ 31)
    (r lb countA : Nat) (hr : r < U32M) (nrem : Nat) (hnrem : nrem = N % 8)
    (h0 : 0 < nrem) (hlbr : nrem ≤ lb) (hlb15 : lb < 16)
    (hcountA : 8 * countA = pos0 + (N - nrem) + lb)
    (hgen : ∀ t, t < lb + (N - nrem) → t < 32 →
      r.testBit t = bitAt buf (8 * countA - 1 - t))
    (num : Nat)
    (hnum : ∀ t, t < N → num.testBit t =
      (decide (nrem ≤ t) && bitAt buf (pos0 + (N - 1 - t)))) :
    (num ||| ((shr32 r (lb - nrem)) &&& (2 ^ N - 1))) &&& (2 ^ N - 1) =
      streamBits buf pos0 N := by
  refine Nat.eq_of_testBit_eq fun t => ?_
  rw [testBit_streamBits, Nat.testBit_and, Nat.testBit_two_pow_sub_one]
  by_cases htN : t < N
  · rw [Nat.testBit_or, Nat.testBit_and, Nat.testBit_two_pow_sub_one]
    unfold shr32
    rw [show (lb - nrem) % 32 = lb - nrem by omega, Nat.testBit_shiftRight]
    rw [hnum t htN]
    by_cases hnt : nrem ≤ t
    · -- the accumulator already holds this bit
      by_cases h32 : lb - nrem + t < 32
      · rw [hgen (lb - nrem + t) (by omega) h32]
        rw [show 8 * countA - 1 - (lb - nrem + t) = pos0 + (N - 1 - t) by omega]
        simp [htN, hnt]
      · have hzero : r.testBit (lb - nrem + t) = false :=
          Nat.testBit_lt_two_pow (by
            calc r < U32M := hr
              _ = 2 ^ 32 := by norm_num [U32M]
              _ ≤ 2 ^ (lb - nrem + t) :=
                  Nat.pow_le_pow_right (by norm_num) (by omega))
        rw [hzero]
        simp [htN, hnt]
    · -- the register supplies this bit
      rw [hgen (lb - nrem + t) (by omega) (by omega)]
      rw [show 8 * countA - 1 - (lb - nrem + t) = pos0 + (N - 1 - t) by omega]
      simp [htN, hnt]
  · simp [htN]

/-- Bit-level correctness of the tail step of `decodebits`, stated at the
point reached after the byte loop of an `N`-bit read (`N ≤ 31`): it
completes the value to the `N` stream bits from `pos0`, moves the cursor to
`pos0 + N`, and leaves the low (unconsumed) register bits equal to those of
the byte before the cursor. -/
theorem decodeTail_bits (buf : List Nat) (hb : ∀ x ∈ buf, x < 256)
    (N pos0 lastbits : Nat) (hN : N ≤ 31) (hlb : lastbits < 8)
    (count lastbyte num : Nat)
    (hcount : 8 * count = pos0 + (N - N % 8) + lastbits)
    (hblt : lastbyte < U32M)
    (hreg : ∀ t, t < lastbits + (N - N % 8) → t < 32 →
      lastbyte.testBit t = bitAt buf (8 * count - 1 - t))
    (hnum : ∀ t, t < N → num.testBit t =
      (decide (N % 8 ≤ t) && bitAt buf (pos0 + (N - 1 - t))))
    (hlen : count < buf.length) :
    ∃ count1 lastbits1 lastbyte1 num1,
      decodeTail buf count lastbits lastbyte num (N % 8) (2 ^ N - 1) =
          some (count1, lastbits1, lastbyte1, num1) ∧
        num1 &&& (2 ^ N - 1) = streamBits buf pos0 N ∧
        lastbits1 < 8 ∧
        8 * count1 = pos0 + N + lastbits1 ∧
        (∀ t, t < lastbits1 →
          lastbyte1.testBit t = (buf.getD (count1 - 1) 0).testBit t) := by
  unfold decodeTail
  by_cases h0 : N % 8 > 0
  · rw [if_pos h0]
    by_cases hpull : lastbits < N % 8
    · rw [if_pos hpull]
      cases hgb : buf.get? count with
      | none =>
          exfalso
          rw [List.get?_eq_getElem?, List.getElem?_eq_none_iff] at hgb
          omega
      | some b =>
          dsimp only
          set r1 := (shl32 lastbyte 8) ||| (b % U32M) with hr1
          have hr1lt : r1 < U32M := by
            rw [hr1]
            have h1 : shl32 lastbyte 8 < U32M := Nat.mod_lt _ (by norm_num [U32M])
            have h2 : b % U32M < U32M := Nat.mod_lt _ (by norm_num [U32M])
            rw [show U32M = 2 ^ 32 by norm_num [U32M]] at h1 h2 ⊢
            exact Nat.or_lt_two_pow h1 h2
          have hreg1 : ∀ t, t < (lastbits + 8) + (N - N % 8) → t < 32 →
              r1.testBit t = bitAt buf (8 * (count + 1) - 1 - t) := by
            have := regShiftIn buf hb count (lastbits + (N - N % 8)) lastbyte b
              (by omega) hgb hreg
            intro t ht1 ht2
            exact this t (by omega) ht2
          refine ⟨count + 1, lastbits + 8 - N % 8, r1,
            num ||| ((shr32 r1 (lastbits + 8 - N % 8)) &&& (2 ^ N - 1)), rfl, ?_, by omega,
            by omega, ?_⟩
          · exact tailValue buf pos0 N hN r1 (lastbits + 8) (count + 1) hr1lt
              (N % 8) rfl h0 (by omega) (by omega) (by omega) hreg1 num hnum
          · intro t ht
            rw [hreg1 t (by omega) (by omega)]
            exact bitAt_prev_byte buf (count + 1) t (by omega) (by omega)
    · rw [if_neg hpull]
      dsimp only
      refine ⟨count, lastbits - N % 8, lastbyte,
        num ||| ((shr32 lastbyte (lastbits - N % 8)) &&& (2 ^ N - 1)), rfl, ?_, by omega,
        by omega, ?_⟩
      · exact tailValue buf pos0 N hN lastbyte lastbits count hblt (N % 8) rfl h0
          (by omega) (by omega) hcount hreg num hnum
      · intro t ht
        rw [hreg t (by omega) (by omega)]
        exact bitAt_prev_byte buf count t (by omega) (by omega)
  · rw [if_neg h0]
    refine ⟨count, lastbits, lastbyte, num, rfl, ?_, hlb, by omega, ?_⟩
    · refine Nat.eq_of_testBit_eq fun t => ?_
      rw [testBit_streamBits, Nat.testBit_and, Nat.testBit_two_pow_sub_one]
      by_cases htN : t < N
      · rw [hnum t htN]
        simp [htN, show N % 8 ≤ t by omega]
      · simp [htN]
    · intro t ht
      rw [hreg t (by omega) (by omega)]
      exact bitAt_prev_byte buf count t (by omega) (by omega)

end Molly

namespace Molly

/-- C2: for `0 ≤ nbits ≤ 31`, on a well-formed state (cursor sanity and the
persisted low register bits agreeing with the byte before the cursor) with
enough bytes left, `decodebits` does not panic and returns exactly the next
`nbits` bits of the stream — in particular a value strictly below
`2^nbits` — while persisting only the low byte of the rolling register (the
new `lastbyte` is below 256 and its unconsumed low bits again match the
byte before the advanced cursor, which moves forward by exactly `nbits`).
At `nbits = 32` the claim fails: the mask `(1u32 << 32) - 1` overflows and
the value is lost (see the counterexample). -/
theorem decodebits_reads_stream (buf : List Nat) (st : DecodeState) (nbits : Nat)
    (hb : ∀ x ∈ buf, x < 256)
    (hlb : st.lastbits < 8)
    (hlc : st.lastbits ≤ 8 * st.count)
    (hreg : st.lastbyte % 2 ^ st.lastbits =
      (buf.getD (st.count - 1) 0) % 2 ^ st.lastbits)
    (hlen : st.count + 4 ≤ buf.length)
    (hnb : nbits ≤ 31) :
    ∃ st1, decodebits buf st nbits =
        some (streamBits buf (8 * st.count - st.lastbits) nbits, st1) ∧
      streamBits buf (8 * st.count - st.lastbits) nbits < 2 ^ nbits ∧
      st1.lastbits < 8 ∧
      st1.lastbits ≤ 8 * st1.count ∧
      st1.lastbyte < 256 ∧
      st1.lastbyte % 2 ^ st1.lastbits =
        (buf.getD (st1.count - 1) 0) % 2 ^ st1.lastbits ∧
      8 * st1.count - st1.lastbits = (8 * st.count - st.lastbits) + nbits := by
  obtain ⟨count, lastbits, lastbyte⟩ := st
  dsimp only at hlb hlc hreg hlen ⊢
  set pos0 := 8 * count - lastbits with hpos0
  have hmask : shl32 1 nbits - 1 = 2 ^ nbits - 1 := by
    unfold shl32
    rw [show nbits % 32 = nbits by omega, Nat.shiftLeft_eq, Nat.one_mul,
      show U32M = 2 ^ 32 by norm_num [U32M]]
    rw [Nat.mod_eq_of_lt (Nat.pow_lt_pow_right (by norm_num) (by omega))]
  have hreg0 : ∀ t, t < lastbits + (nbits - nbits) → t < 32 →
      (lastbyte % U32M).testBit t = bitAt buf (8 * count - 1 - t) := by
    intro t ht1 ht2
    have ht8 : t < lastbits := by omega
    have hcpos : 1 ≤ count := by omega
    have h1 : (lastbyte % U32M).testBit t = lastbyte.testBit t := by
      rw [show U32M = 2 ^ 32 by norm_num [U32M], Nat.testBit_mod_two_pow]
      simp [ht2]
    have h2 : lastbyte.testBit t = (buf.getD (count - 1) 0).testBit t := by
      have := congrArg (fun x => x.testBit t) hreg
      dsimp only at this
      rwa [Nat.testBit_mod_two_pow, Nat.testBit_mod_two_pow,
        decide_eq_true (show t < lastbits from ht8), Bool.true_and,
        Bool.true_and] at this
    rw [h1, h2, bitAt_prev_byte buf count t (by omega) hcpos]
  obtain ⟨lastbyte1, num1, hloop, hlt1, hreg1, hnum1⟩ :=
    decodeLoop_bits buf hb nbits pos0 lastbits (by omega) hlb nbits count
      (lastbyte % U32M) 0 (by omega) (by omega)
      (Nat.mod_lt _ (by norm_num [U32M])) hreg0
      (by intro t htN; simp [Nat.testBit_zero, show ¬ nbits ≤ t by omega])
      (by omega)
  obtain ⟨count1, lastbits1, lastbyte2, num2, htail, hval, hlb1, hcount1, hregF⟩ :=
    decodeTail_bits buf hb nbits pos0 lastbits hnb hlb (count + nbits / 8)
      lastbyte1 num1 (by omega) hlt1
      (by
        intro t ht1 ht2
        exact hreg1 t (by omega) ht2)
      (by
        intro t htN
        exact hnum1 t htN)
      (by omega)
  refine ⟨⟨count1, lastbits1, lastbyte2 &&& 255⟩, ?_, streamBits_lt buf pos0 nbits,
    hlb1, by dsimp only; omega, ?_, ?_, by dsimp only; omega⟩
  · unfold decodebits
    dsimp only
    rw [hmask, hloop]
    simp only [Option.bind_eq_bind, Option.some_bind]
    rw [htail]
    simp only [Option.some_bind]
    rw [hval]
  · dsimp only
    calc lastbyte2 &&& 255 ≤ 255 := Nat.and_le_right
      _ < 256 := by norm_num
  · dsimp only
    refine mod_two_pow_eq_of_testBit_eq _ _ _ fun t ht => ?_
    rw [Nat.testBit_and, show (255 : Nat) = 2 ^ 8 - 1 by norm_num,
      Nat.testBit_two_pow_sub_one, decide_eq_true (show t < 8 by omega),
      Bool.and_true]
    exact hregF t ht

end Molly

namespace Molly

/-- Witness for `decodebits_reads_stream`: a 12-bit read on the buffer
`0xAB 0xCD 0xEF 0x12 0x00` from a fresh state yields `0xABC`. -/
theorem decodebits_reads_stream_witness :
    (∀ x ∈ ([171, 205, 239, 18, 0] : List Nat), x < 256) ∧
      ((⟨0, 0, 0⟩ : DecodeState).lastbits < 8) ∧
      ((⟨0, 0, 0⟩ : DecodeState).lastbits ≤ 8 * (⟨0, 0, 0⟩ : DecodeState).count) ∧
      ((⟨0, 0, 0⟩ : DecodeState).lastbyte % 2 ^ (⟨0, 0, 0⟩ : DecodeState).lastbits =
        (([171, 205, 239, 18, 0] : List Nat).getD
          ((⟨0, 0, 0⟩ : DecodeState).count - 1) 0) %
          2 ^ (⟨0, 0, 0⟩ : DecodeState).lastbits) ∧
      ((⟨0, 0, 0⟩ : DecodeState).count + 4 ≤
        ([171, 205, 239, 18, 0] : List Nat).length) ∧
      ((12 : Nat) ≤ 31) ∧
      (∃ st1, decodebits [171, 205, 239, 18, 0] ⟨0, 0, 0⟩ 12 =
          some (streamBits [171, 205, 239, 18, 0]
            (8 * (⟨0, 0, 0⟩ : DecodeState).count -
              (⟨0, 0, 0⟩ : DecodeState).lastbits) 12, st1) ∧
        streamBits [171, 205, 239, 18, 0]
          (8 * (⟨0, 0, 0⟩ : DecodeState).count -
            (⟨0, 0, 0⟩ : DecodeState).lastbits) 12 < 2 ^ 12 ∧
        st1.lastbits < 8 ∧
        st1.lastbits ≤ 8 * st1.count ∧
        st1.lastbyte < 256 ∧
        st1.lastbyte % 2 ^ st1.lastbits =
          (([171, 205, 239, 18, 0] : List Nat).getD (st1.count - 1) 0) %
            2 ^ st1.lastbits ∧
        8 * st1.count - st1.lastbits =
          (8 * (⟨0, 0, 0⟩ : DecodeState).count -
            (⟨0, 0, 0⟩ : DecodeState).lastbits) + 12) :=
  ⟨by decide, by decide, by decide, by decide, by decide, by decide,
    decodebits_reads_stream [171, 205, 239, 18, 0] ⟨0, 0, 0⟩ 12 (by decide)
      (by decide) (by decide) (by decide) (by decide) (by decide)⟩

end Molly
